import Mathlib

/-!
Verification of the pixel-classification and contrast-statistics engine of the
image-contrast audit tool.  The two call sites embedded here are the batch
command-line path (`symbol_contrast.js`, function `analyzeOne`) and the
interactive browser path (`web/app.js`, function `analyze`).  Machine numbers
are modelled exactly: 8-bit channels are `ℕ`, colour-distance tests are done on
integer squares (for integer `d ≥ 0` and integer sum of squares `s`,
`Math.sqrt s ≤ d` holds in double precision exactly when `s ≤ d ^ 2`, because
both `s` and `d ^ 2` are far below 2^53 and the gap between `√(d^2)` and
`√(d^2 + 1)` dwarfs one ulp), and the floating WCAG luminance arithmetic is
idealised over `ℝ` with the exact exponent 2.4.
-/

namespace ImgContrast

/-- One RGBA pixel with unassociated alpha, each channel an 8-bit value. -/
structure Pixel where
  r : ℕ
  g : ℕ
  b : ℕ
  a : ℕ

deriving instance DecidableEq for Pixel

/-- An RGB colour triple, as produced by `parseColor` / `parseHexColor`. -/
structure RGB where
  r : ℕ
  g : ℕ
  b : ℕ

deriving instance DecidableEq for RGB

/-- A fully materialised pixel buffer: dimensions plus pixel lookup.  The
analysis only ever reads `px x y` for `x < w` and `y < h`. -/
structure Img where
  w : ℕ
  h : ℕ
  px : ℕ → ℕ → Pixel

/-- Grid position `(x, y)`. -/
abbrev Pos := ℕ × ℕ

/-- Position inside the `w × h` grid. -/
def ValidPos (w h : ℕ) (p : Pos) : Prop :=
  p.1 < w ∧ p.2 < h

instance (w h : ℕ) (p : Pos) : Decidable (ValidPos w h p) :=
  inferInstanceAs (Decidable (_ ∧ _))

/-- Position on the outer perimeter of the grid (the flood-fill seed ring). -/
def BorderPos (w h : ℕ) (p : Pos) : Prop :=
  ValidPos w h p ∧ (p.1 = 0 ∨ p.2 = 0 ∨ p.1 = w - 1 ∨ p.2 = h - 1)

instance (w h : ℕ) (p : Pos) : Decidable (BorderPos w h p) :=
  inferInstanceAs (Decidable (_ ∧ _))

/-- 4-connectivity of grid positions. -/
def Adj (p q : Pos) : Prop :=
  (q.1 = p.1 + 1 ∧ q.2 = p.2) ∨ (q.1 + 1 = p.1 ∧ q.2 = p.2) ∨
    (q.1 = p.1 ∧ q.2 = p.2 + 1) ∨ (q.1 = p.1 ∧ q.2 + 1 = p.2)

instance (p q : Pos) : Decidable (Adj p q) :=
  inferInstanceAs (Decidable (_ ∨ _))

/-- All positions of the `w × h` grid. -/
def gridF (w h : ℕ) : Finset Pos :=
  Finset.range w ×ˢ Finset.range h

theorem mem_gridF {w h : ℕ} {p : Pos} : p ∈ gridF w h ↔ ValidPos w h p := by
  cases p with
  | mk x y =>
    simp [gridF, ValidPos, Finset.mem_product]

/-- Near-background predicate (`isNearBg` in both sources): alpha at most the
alpha cutoff, or squared Euclidean RGB distance to the segmentation colour at
most the squared distance threshold (the source compares
`Math.sqrt(dr*dr+dg*dg+db*db) <= nearBgDist`, equivalent on these integer
ranges). -/
def isNearBg (segBg : RGB) (alphaBg nearBgDist : ℕ) (p : Pixel) : Bool :=
  if p.a ≤ alphaBg then true
  else
    decide (((segBg.r : ℤ) - p.r) ^ 2 + ((segBg.g : ℤ) - p.g) ^ 2 +
      ((segBg.b : ℤ) - p.b) ^ 2 ≤ (nearBgDist : ℤ) ^ 2)

/-- Flood-fill worklist state: the set of marked pixels and the pending queue.
Both sources mark a pixel at the moment it is enqueued. -/
abbrev FloodState := Finset Pos × List Pos

/-- The guarded enqueue step (`pushIf` in both sources): inside the grid, not
yet marked, and near-background, mark the pixel and append it to the
worklist. -/
def pushIf (w h : ℕ) (pred : Pos → Bool) (st : FloodState) (p : Pos) : FloodState :=
  if ValidPos w h p then
    if p ∈ st.1 then st
    else if pred p then (insert p st.1, st.2 ++ [p]) else st
  else st

/-- Seed order of both sources: for each `x` the top and bottom row pixels,
then for each `y` the left and right column pixels. -/
def borderSeeds (w h : ℕ) : List Pos :=
  ((List.range w).bind fun x => [(x, 0), (x, h - 1)]) ++
    ((List.range h).bind fun y => [(0, y), (w - 1, y)])

/-- Border seeding: both sources call `pushIf` on the top and bottom rows and
on the left and right columns, in `borderSeeds` order. -/
def seedState (w h : ℕ) (pred : Pos → Bool) : FloodState :=
  (borderSeeds w h).foldl (pushIf w h pred) (∅, [])

/-- Neighbour enqueue order of the batch path: right, left, down, up
(`pushIf(x+1,y); pushIf(x-1,y); pushIf(x,y+1); pushIf(x,y-1)`); an `x-1` or
`y-1` that would underflow is rejected by the bounds check in the source, so
it is simply omitted here. -/
def nbrsCli (p : Pos) : List Pos :=
  [(p.1 + 1, p.2)] ++ (if p.1 = 0 then [] else [(p.1 - 1, p.2)]) ++
    [(p.1, p.2 + 1)] ++ (if p.2 = 0 then [] else [(p.1, p.2 - 1)])

/-- Neighbour enqueue order of the browser path: left, right, up, down, each
guarded by an explicit bounds test in the source. -/
def nbrsWeb (p : Pos) : List Pos :=
  (if p.1 = 0 then [] else [(p.1 - 1, p.2)]) ++ [(p.1 + 1, p.2)] ++
    (if p.2 = 0 then [] else [(p.1, p.2 - 1)]) ++ [(p.1, p.2 + 1)]

theorem mem_nbrsCli {p q : Pos} : q ∈ nbrsCli p ↔ Adj p q := by
  cases p with
  | mk x y =>
    cases q with
    | mk a b =>
      cases x with
      | zero =>
        cases y with
        | zero => simp [nbrsCli, Adj] <;> omega
        | succ y => simp [nbrsCli, Adj] <;> omega
      | succ x =>
        cases y with
        | zero => simp [nbrsCli, Adj] <;> omega
        | succ y => simp [nbrsCli, Adj] <;> omega

theorem mem_nbrsWeb {p q : Pos} : q ∈ nbrsWeb p ↔ Adj p q := by
  cases p with
  | mk x y =>
    cases q with
    | mk a b =>
      cases x with
      | zero =>
        cases y with
        | zero => simp [nbrsWeb, Adj] <;> omega
        | succ y => simp [nbrsWeb, Adj] <;> omega
      | succ x =>
        cases y with
        | zero => simp [nbrsWeb, Adj] <;> omega
        | succ y => simp [nbrsWeb, Adj] <;> omega

/-- One fuel-indexed run of the flood-fill worklist loop.  `lifo = true` is the
batch path (`q.pop()`, a stack), `lifo = false` the browser path (head/tail
queue); both append newly marked pixels at the end. -/
def floodAux (w h : ℕ) (pred : Pos → Bool) (lifo : Bool) :
    ℕ → FloodState → FloodState
  | 0, st => st
  | _ + 1, (m, []) => (m, [])
  | fuel + 1, (m, x :: xs) =>
      let p := if lifo then (x :: xs).getLast (List.cons_ne_nil x xs) else x
      let rest := if lifo then (x :: xs).dropLast else xs
      let nb := if lifo then nbrsCli p else nbrsWeb p
      floodAux w h pred lifo fuel (nb.foldl (pushIf w h pred) (m, rest))

/-- Border-seeded flood fill (tier 1 of segmentation), with enough fuel to
drain the worklist. -/
def floodFill (w h : ℕ) (pred : Pos → Bool) (lifo : Bool) : Finset Pos :=
  let st := seedState w h pred
  (floodAux w h pred lifo (st.2.length + 5 * (w * h)) st).1

/-- Pixels reachable from a border seed through a 4-connected run of
near-background pixels: the intended meaning of the background mask. -/
inductive Reach (w h : ℕ) (pred : Pos → Bool) : Pos → Prop
  | base {p : Pos} : BorderPos w h p → pred p = true → Reach w h pred p
  | step {p q : Pos} : Reach w h pred p → Adj p q → ValidPos w h q →
      pred q = true → Reach w h pred q

theorem Reach.valid {w h : ℕ} {pred : Pos → Bool} {p : Pos}
    (hp : Reach w h pred p) : ValidPos w h p := by
  induction hp with
  | base hb _ => exact hb.1
  | step _ _ hv _ _ => exact hv

theorem Reach.pred_true {w h : ℕ} {pred : Pos → Bool} {p : Pos}
    (hp : Reach w h pred p) : pred p = true := by
  induction hp with
  | base _ hpr => exact hpr
  | step _ _ _ hpr _ => exact hpr

section FloodCorrect

variable {w h : ℕ} {pred : Pos → Bool}

theorem pushIf_eq_of_invalid {st : FloodState} {p : Pos}
    (hv : ¬ ValidPos w h p) : pushIf w h pred st p = st := by
  unfold pushIf
  rw [if_neg hv]

theorem pushIf_eq_of_mem {st : FloodState} {p : Pos}
    (hv : ValidPos w h p) (hm : p ∈ st.1) : pushIf w h pred st p = st := by
  unfold pushIf
  rw [if_pos hv, if_pos hm]

theorem pushIf_eq_of_pred_false {st : FloodState} {p : Pos}
    (hv : ValidPos w h p) (hm : p ∉ st.1) (hp : ¬ pred p = true) :
    pushIf w h pred st p = st := by
  unfold pushIf
  rw [if_pos hv, if_neg hm, if_neg hp]

theorem pushIf_eq_insert {st : FloodState} {p : Pos}
    (hv : ValidPos w h p) (hm : p ∉ st.1) (hp : pred p = true) :
    pushIf w h pred st p = (insert p st.1, st.2 ++ [p]) := by
  unfold pushIf
  rw [if_pos hv, if_neg hm, if_pos hp]

theorem mem_pushIf_marks {st : FloodState} {p q : Pos} :
    q ∈ (pushIf w h pred st p).1 ↔
      q ∈ st.1 ∨ (q = p ∧ ValidPos w h p ∧ pred p = true) := by
  by_cases hv : ValidPos w h p
  · by_cases hm : p ∈ st.1
    · simp only [pushIf, if_pos hv, if_pos hm]
      constructor
      · exact Or.inl
      · rintro (hq | ⟨rfl, -, -⟩)
        · exact hq
        · exact hm
    · by_cases hp : pred p = true
      · simp only [pushIf, if_pos hv, if_neg hm, if_pos hp, Finset.mem_insert]
        tauto
      · simp only [pushIf, if_pos hv, if_neg hm, if_neg hp]
        tauto
  · simp only [pushIf, if_neg hv]
    tauto

theorem pushIf_marks_mono {st : FloodState} {p : Pos} :
    st.1 ⊆ (pushIf w h pred st p).1 := by
  intro q hq
  exact mem_pushIf_marks.2 (Or.inl hq)

theorem pushIf_queue_mono {st : FloodState} {p q : Pos} (hq : q ∈ st.2) :
    q ∈ (pushIf w h pred st p).2 := by
  unfold pushIf
  split
  · split
    · exact hq
    · split
      · exact List.mem_append_left _ hq
      · exact hq
  · exact hq

theorem foldPush_marks_mono {l : List Pos} {st : FloodState} :
    st.1 ⊆ ((l.foldl (pushIf w h pred) st)).1 := by
  induction l generalizing st with
  | nil => exact fun q hq => hq
  | cons a t ih =>
      exact fun q hq => ih (pushIf_marks_mono hq)

theorem foldPush_queue_mono {l : List Pos} {st : FloodState} {q : Pos}
    (hq : q ∈ st.2) : q ∈ ((l.foldl (pushIf w h pred) st)).2 := by
  induction l generalizing st with
  | nil => exact hq
  | cons a t ih => exact ih (pushIf_queue_mono hq)

theorem foldPush_mem_marks {l : List Pos} {st : FloodState} {q : Pos}
    (hql : q ∈ l) (hv : ValidPos w h q) (hp : pred q = true) :
    q ∈ ((l.foldl (pushIf w h pred) st)).1 := by
  induction l generalizing st with
  | nil => cases hql
  | cons a t ih =>
      rcases List.mem_cons.1 hql with rfl | hmem
      · rw [List.foldl_cons]
        exact foldPush_marks_mono (mem_pushIf_marks.2 (Or.inr ⟨rfl, hv, hp⟩))
      · rw [List.foldl_cons]
        exact ih hmem

theorem foldPush_marks_in_queue {l : List Pos} {st : FloodState} {q : Pos}
    (hq : q ∈ ((l.foldl (pushIf w h pred) st)).1) :
    q ∈ st.1 ∨ q ∈ ((l.foldl (pushIf w h pred) st)).2 := by
  induction l generalizing st with
  | nil => exact Or.inl hq
  | cons a t ih =>
      rw [List.foldl_cons] at hq ⊢
      rcases ih hq with hq' | hq'
      · rcases mem_pushIf_marks.1 hq' with hq'' | ⟨rfl, hv, hp⟩
        · exact Or.inl hq''
        · by_cases hm : q ∈ st.1
          · exact Or.inl hm
          · refine Or.inr (foldPush_queue_mono ?_)
            rw [pushIf_eq_insert hv hm hp]
            exact List.mem_append_right _ (List.mem_singleton.2 rfl)
      · exact Or.inr hq'

/-- All eligible 4-neighbours of `p` are already marked: `p` needs no further
processing. -/
def NbrsDone (w h : ℕ) (pred : Pos → Bool) (m : Finset Pos) (p : Pos) : Prop :=
  ∀ q, Adj p q → ValidPos w h q → pred q = true → q ∈ m

/-- Worklist invariant: every mark is genuinely border-reachable, the queue
holds only marks, every mark is valid, and every mark is pending or fully
processed. -/
structure FloodInv (w h : ℕ) (pred : Pos → Bool) (st : FloodState) : Prop where
  marks_reach : ∀ p ∈ st.1, Reach w h pred p
  queue_marked : ∀ p ∈ st.2, p ∈ st.1
  marks_valid : ∀ p ∈ st.1, ValidPos w h p
  processed : ∀ p ∈ st.1, p ∈ st.2 ∨ NbrsDone w h pred st.1 p

theorem nbrsDone_mono {m m' : Finset Pos} {p : Pos} (hmm : m ⊆ m')
    (hd : NbrsDone w h pred m p) : NbrsDone w h pred m' p :=
  fun q hq hv hp => hmm (hd q hq hv hp)

theorem floodInv_pushIf {st : FloodState} {p : Pos}
    (hinv : FloodInv w h pred st)
    (hp : ValidPos w h p → pred p = true → Reach w h pred p) :
    FloodInv w h pred (pushIf w h pred st p) := by
  by_cases hv : ValidPos w h p
  · by_cases hm : p ∈ st.1
    · rw [pushIf_eq_of_mem hv hm]
      exact hinv
    · by_cases hpr : pred p = true
      · rw [pushIf_eq_insert hv hm hpr]
        refine ⟨?_, ?_, ?_, ?_⟩
        · intro q hq
          rcases Finset.mem_insert.1 hq with rfl | hq'
          · exact hp hv hpr
          · exact hinv.marks_reach q hq'
        · intro q hq
          rcases List.mem_append.1 hq with hq' | hq'
          · exact Finset.mem_insert_of_mem (hinv.queue_marked q hq')
          · rcases List.mem_singleton.1 hq' with rfl
            exact Finset.mem_insert_self _ _
        · intro q hq
          rcases Finset.mem_insert.1 hq with rfl | hq'
          · exact hv
          · exact hinv.marks_valid q hq'
        · intro q hq
          rcases Finset.mem_insert.1 hq with rfl | hq'
          · exact Or.inl (List.mem_append_right _ (List.mem_singleton.2 rfl))
          · rcases hinv.processed q hq' with hq'' | hq''
            · exact Or.inl (List.mem_append_left _ hq'')
            · exact Or.inr (nbrsDone_mono (Finset.subset_insert _ _) hq'')
      · rw [pushIf_eq_of_pred_false hv hm hpr]
        exact hinv
  · rw [pushIf_eq_of_invalid hv]
    exact hinv

theorem floodInv_foldPush {l : List Pos} {st : FloodState}
    (hinv : FloodInv w h pred st)
    (hl : ∀ q ∈ l, ValidPos w h q → pred q = true → Reach w h pred q) :
    FloodInv w h pred (l.foldl (pushIf w h pred) st) := by
  induction l generalizing st with
  | nil => exact hinv
  | cons a t ih =>
      refine ih (floodInv_pushIf hinv ?_) ?_
      · exact hl a (List.mem_cons_self a t)
      · exact fun q hq => hl q (List.mem_cons_of_mem a hq)

theorem mem_foldPush_marks {l : List Pos} {st : FloodState} {q : Pos} :
    q ∈ ((l.foldl (pushIf w h pred) st)).1 ↔
      q ∈ st.1 ∨ (q ∈ l ∧ ValidPos w h q ∧ pred q = true) := by
  induction l generalizing st with
  | nil => simp
  | cons a t ih =>
      rw [List.foldl_cons, ih]
      constructor
      · rintro (hm | ⟨hqt, hv, hp⟩)
        · rcases mem_pushIf_marks.1 hm with hq | ⟨rfl, hv, hp⟩
          · exact Or.inl hq
          · exact Or.inr ⟨List.mem_cons_self _ _, hv, hp⟩
        · exact Or.inr ⟨List.mem_cons_of_mem _ hqt, hv, hp⟩
      · rintro (hq | ⟨hqm, hv, hp⟩)
        · exact Or.inl (mem_pushIf_marks.2 (Or.inl hq))
        · rcases List.mem_cons.1 hqm with rfl | hqt
          · exact Or.inl (mem_pushIf_marks.2 (Or.inr ⟨rfl, hv, hp⟩))
          · exact Or.inr ⟨hqt, hv, hp⟩

theorem pushIf_queue_marked {st : FloodState} {p : Pos}
    (hqm : ∀ o ∈ st.2, o ∈ st.1) :
    ∀ o ∈ (pushIf w h pred st p).2, o ∈ (pushIf w h pred st p).1 := by
  by_cases hv : ValidPos w h p
  · by_cases hm : p ∈ st.1
    · rw [pushIf_eq_of_mem hv hm]
      exact hqm
    · by_cases hp : pred p = true
      · rw [pushIf_eq_insert hv hm hp]
        intro o ho
        rcases List.mem_append.1 ho with ho' | ho'
        · exact Finset.mem_insert_of_mem (hqm o ho')
        · rcases List.mem_singleton.1 ho'
          exact Finset.mem_insert_self _ _
      · rw [pushIf_eq_of_pred_false hv hm hp]
        exact hqm
  · rw [pushIf_eq_of_invalid hv]
    exact hqm

theorem foldPush_queue_marked {l : List Pos} {st : FloodState}
    (hqm : ∀ o ∈ st.2, o ∈ st.1) :
    ∀ o ∈ ((l.foldl (pushIf w h pred) st)).2,
      o ∈ ((l.foldl (pushIf w h pred) st)).1 := by
  induction l generalizing st with
  | nil => exact hqm
  | cons a t ih =>
      rw [List.foldl_cons]
      exact ih (pushIf_queue_marked hqm)

/-- Popping one pending pixel and enqueueing its eligible neighbours preserves
the worklist invariant, for any pop discipline. -/
theorem floodInv_pop {m : Finset Pos} {q : List Pos}
    (hinv : FloodInv w h pred (m, q)) {p : Pos} {rest nb : List Pos}
    (hpq : p ∈ q)
    (hsplit : ∀ o ∈ q, o = p ∨ o ∈ rest)
    (hrest : ∀ o ∈ rest, o ∈ q)
    (hnb : ∀ r, r ∈ nb ↔ Adj p r) :
    FloodInv w h pred (nb.foldl (pushIf w h pred) (m, rest)) := by
  have hpm : p ∈ m := hinv.queue_marked p hpq
  have hreachp : Reach w h pred p := hinv.marks_reach p hpm
  have hl : ∀ r ∈ nb, ValidPos w h r → pred r = true → Reach w h pred r :=
    fun r hr hv hp => Reach.step hreachp ((hnb r).1 hr) hv hp
  refine ⟨?_, ?_, ?_, ?_⟩
  · intro o ho
    rcases mem_foldPush_marks.1 ho with ho' | ⟨honb, hv, hp⟩
    · exact hinv.marks_reach o ho'
    · exact hl o honb hv hp
  · exact foldPush_queue_marked fun o ho => hinv.queue_marked o (hrest o ho)
  · intro o ho
    rcases mem_foldPush_marks.1 ho with ho' | ⟨-, hv, -⟩
    · exact hinv.marks_valid o ho'
    · exact hv
  · intro o ho
    by_cases hom : o ∈ m
    · rcases hinv.processed o hom with hoq | hdone
      · rcases hsplit o hoq with rfl | horest
        · refine Or.inr ?_
          intro r hr hv hp
          exact foldPush_mem_marks ((hnb r).2 hr) hv hp
        · exact Or.inl (foldPush_queue_mono horest)
      · exact Or.inr (nbrsDone_mono foldPush_marks_mono hdone)
    · rcases foldPush_marks_in_queue ho with ho' | ho'
      · exact absurd ho' hom
      · exact Or.inl ho'

theorem floodInv_floodAux {lifo : Bool} {fuel : ℕ} {st : FloodState}
    (hinv : FloodInv w h pred st) :
    FloodInv w h pred (floodAux w h pred lifo fuel st) := by
  induction fuel generalizing st with
  | zero => exact hinv
  | succ fuel ih =>
      obtain ⟨m, q⟩ := st
      cases q with
      | nil => exact hinv
      | cons x xs =>
          cases lifo with
          | false =>
              have hrw : floodAux w h pred false (fuel + 1) (m, x :: xs) =
                  floodAux w h pred false fuel
                    ((nbrsWeb x).foldl (pushIf w h pred) (m, xs)) := rfl
              rw [hrw]
              refine ih (floodInv_pop hinv (List.mem_cons_self x xs) ?_ ?_ ?_)
              · intro o ho
                exact (List.mem_cons.1 ho).imp id id
              · exact fun o ho => List.mem_cons_of_mem x ho
              · exact fun r => mem_nbrsWeb
          | true =>
              have hrw : floodAux w h pred true (fuel + 1) (m, x :: xs) =
                  floodAux w h pred true fuel
                    ((nbrsCli ((x :: xs).getLast (List.cons_ne_nil x xs))).foldl
                      (pushIf w h pred) (m, (x :: xs).dropLast)) := rfl
              rw [hrw]
              refine ih (floodInv_pop hinv
                (List.getLast_mem (List.cons_ne_nil x xs)) ?_ ?_ ?_)
              · intro o ho
                have hdecomp := List.dropLast_append_getLast (List.cons_ne_nil x xs)
                rw [← hdecomp] at ho
                rcases List.mem_append.1 ho with ho' | ho'
                · exact Or.inr ho'
                · exact Or.inl (List.mem_singleton.1 ho')
              · exact fun o ho => (List.dropLast_sublist (x :: xs)).subset ho
              · exact fun r => mem_nbrsCli

theorem floodAux_marks_mono {lifo : Bool} {fuel : ℕ} {st : FloodState} :
    st.1 ⊆ (floodAux w h pred lifo fuel st).1 := by
  induction fuel generalizing st with
  | zero => exact fun q hq => hq
  | succ fuel ih =>
      obtain ⟨m, q⟩ := st
      cases q with
      | nil => exact fun q hq => hq
      | cons x xs =>
          cases lifo with
          | false =>
              have hrw : floodAux w h pred false (fuel + 1) (m, x :: xs) =
                  floodAux w h pred false fuel
                    ((nbrsWeb x).foldl (pushIf w h pred) (m, xs)) := rfl
              rw [hrw]
              exact fun q hq => ih (foldPush_marks_mono hq)
          | true =>
              have hrw : floodAux w h pred true (fuel + 1) (m, x :: xs) =
                  floodAux w h pred true fuel
                    ((nbrsCli ((x :: xs).getLast (List.cons_ne_nil x xs))).foldl
                      (pushIf w h pred) (m, (x :: xs).dropLast)) := rfl
              rw [hrw]
              exact fun q hq => ih (foldPush_marks_mono hq)

/-- Termination measure of the worklist loop: queue length plus five times the
number of still-unmarked grid pixels. -/
def floodMeasure (w h : ℕ) (st : FloodState) : ℕ :=
  st.2.length + 5 * ((gridF w h) \ st.1).card

theorem floodMeasure_pushIf {st : FloodState} {p : Pos} :
    floodMeasure w h (pushIf w h pred st p) ≤ floodMeasure w h st := by
  by_cases hv : ValidPos w h p
  · by_cases hm : p ∈ st.1
    · rw [pushIf_eq_of_mem hv hm]
    · by_cases hp : pred p = true
      · rw [pushIf_eq_insert hv hm hp]
        have hpg : p ∈ (gridF w h) \ st.1 :=
          Finset.mem_sdiff.2 ⟨mem_gridF.2 hv, hm⟩
        have hcard : ((gridF w h) \ insert p st.1).card =
            ((gridF w h) \ st.1).card - 1 := by
          rw [Finset.sdiff_insert, Finset.card_erase_of_mem hpg]
        have hpos : 0 < ((gridF w h) \ st.1).card := Finset.card_pos.2 ⟨p, hpg⟩
        simp only [floodMeasure, List.length_append, List.length_singleton, hcard]
        omega
      · rw [pushIf_eq_of_pred_false hv hm hp]
  · rw [pushIf_eq_of_invalid hv]

theorem floodMeasure_foldPush {l : List Pos} {st : FloodState} :
    floodMeasure w h (l.foldl (pushIf w h pred) st) ≤ floodMeasure w h st := by
  induction l generalizing st with
  | nil => exact le_rfl
  | cons a t ih =>
      rw [List.foldl_cons]
      exact le_trans ih floodMeasure_pushIf

theorem floodAux_drained {lifo : Bool} {fuel : ℕ} {st : FloodState}
    (hf : floodMeasure w h st ≤ fuel) :
    (floodAux w h pred lifo fuel st).2 = [] := by
  induction fuel generalizing st with
  | zero =>
      have : st.2.length = 0 := by
        have := hf
        simp only [floodMeasure, Nat.le_zero] at this
        omega
      exact List.length_eq_zero.1 this
  | succ fuel ih =>
      obtain ⟨m, q⟩ := st
      cases q with
      | nil => rfl
      | cons x xs =>
          cases lifo with
          | false =>
              have hrw : floodAux w h pred false (fuel + 1) (m, x :: xs) =
                  floodAux w h pred false fuel
                    ((nbrsWeb x).foldl (pushIf w h pred) (m, xs)) := rfl
              rw [hrw]
              refine ih (le_trans floodMeasure_foldPush ?_)
              have hlen : floodMeasure w h (m, xs) + 1 =
                  floodMeasure w h (m, x :: xs) := by
                simp only [floodMeasure, List.length_cons]
                omega
              omega
          | true =>
              have hrw : floodAux w h pred true (fuel + 1) (m, x :: xs) =
                  floodAux w h pred true fuel
                    ((nbrsCli ((x :: xs).getLast (List.cons_ne_nil x xs))).foldl
                      (pushIf w h pred) (m, (x :: xs).dropLast)) := rfl
              rw [hrw]
              refine ih (le_trans floodMeasure_foldPush ?_)
              have hlen : ((x :: xs).dropLast).length = xs.length := by
                rw [List.length_dropLast, List.length_cons]
                omega
              simp only [floodMeasure, List.length_cons, hlen] at hf ⊢
              omega

theorem seedState_floodInv : FloodInv w h pred (seedState w h pred) := by
  refine floodInv_foldPush ⟨?_, ?_, ?_, ?_⟩ ?_
  · intro p hp
    cases hp
  · intro p hp
    cases hp
  · intro p hp
    cases hp
  · intro p hp
    cases hp
  · intro q hq hv hp
    refine Reach.base ⟨hv, ?_⟩ hp
    rcases List.mem_append.1 hq with hq' | hq'
    · rcases List.mem_bind.1 hq' with ⟨x, -, hx⟩
      rcases List.mem_cons.1 hx with rfl | hx'
      · exact Or.inr (Or.inl rfl)
      · rcases List.mem_singleton.1 hx'
        exact Or.inr (Or.inr (Or.inr rfl))
    · rcases List.mem_bind.1 hq' with ⟨y, -, hy⟩
      rcases List.mem_cons.1 hy with rfl | hy'
      · exact Or.inl rfl
      · rcases List.mem_singleton.1 hy'
        exact Or.inr (Or.inr (Or.inl rfl))

theorem seedState_complete {p : Pos} (hb : BorderPos w h p)
    (hp : pred p = true) : p ∈ (seedState w h pred).1 := by
  refine foldPush_mem_marks ?_ hb.1 hp
  obtain ⟨⟨hx, hy⟩, hcase⟩ := hb
  obtain ⟨a, b⟩ := p
  rcases hcase with h1 | h1 | h1 | h1
  · dsimp only at h1
    subst h1
    exact List.mem_append_right _
      (List.mem_bind.2 ⟨b, List.mem_range.2 hy, List.mem_cons_self _ _⟩)
  · dsimp only at h1
    subst h1
    exact List.mem_append_left _
      (List.mem_bind.2 ⟨a, List.mem_range.2 hx, List.mem_cons_self _ _⟩)
  · dsimp only at h1
    subst h1
    exact List.mem_append_right _
      (List.mem_bind.2 ⟨b, List.mem_range.2 hy,
        List.mem_cons_of_mem _ (List.mem_singleton.2 rfl)⟩)
  · dsimp only at h1
    subst h1
    exact List.mem_append_left _
      (List.mem_bind.2 ⟨a, List.mem_range.2 hx,
        List.mem_cons_of_mem _ (List.mem_singleton.2 rfl)⟩)

/-- The flood fill marks exactly the border-reachable near-background pixels,
whatever the worklist discipline. -/
theorem mem_floodFill_iff {lifo : Bool} {p : Pos} :
    p ∈ floodFill w h pred lifo ↔ Reach w h pred p := by
  have hfuel : floodMeasure w h (seedState w h pred) ≤
      (seedState w h pred).2.length + 5 * (w * h) := by
    have hcard : ((gridF w h) \ (seedState w h pred).1).card ≤ w * h := by
      refine le_trans (Finset.card_le_card (Finset.sdiff_subset)) ?_
      rw [gridF, Finset.card_product, Finset.card_range, Finset.card_range]
    simp only [floodMeasure]
    omega
  have hinv : FloodInv w h pred
      (floodAux w h pred lifo ((seedState w h pred).2.length + 5 * (w * h))
        (seedState w h pred)) :=
    floodInv_floodAux seedState_floodInv
  have hdrained : (floodAux w h pred lifo
      ((seedState w h pred).2.length + 5 * (w * h)) (seedState w h pred)).2 = [] :=
    floodAux_drained hfuel
  constructor
  · intro hp
    exact hinv.marks_reach p hp
  · intro hp
    induction hp with
    | base hb hpr =>
        exact floodAux_marks_mono (seedState_complete hb hpr)
    | step hr hadj hv hpr ih =>
        rcases hinv.processed _ ih with hq | hdone
        · rw [hdrained] at hq
          cases hq
        · exact hdone _ hadj hv hpr

theorem reach_of_chain {b : Pos} {l : List Pos} {p : Pos}
    (hb : Reach w h pred b)
    (hmem : ∀ q ∈ l, ValidPos w h q ∧ pred q = true)
    (hch : List.Chain Adj b l)
    (hlast : (b :: l).getLast (List.cons_ne_nil b l) = p) :
    Reach w h pred p := by
  induction l generalizing b with
  | nil =>
      rw [List.getLast_singleton] at hlast
      exact hlast ▸ hb
  | cons x t ih =>
      rcases List.chain_cons.1 hch with ⟨hadj, hch'⟩
      obtain ⟨hv, hp⟩ := hmem x (List.mem_cons_self x t)
      refine ih (Reach.step hb hadj hv hp)
        (fun q hq => hmem q (List.mem_cons_of_mem x hq)) hch' ?_
      rw [← hlast, List.getLast_cons (List.cons_ne_nil x t)]

theorem chain_step_members {b : Pos} {l : List Pos}
    (hch : List.Chain (fun x y => Adj x y ∧ ValidPos w h y ∧ pred y = true) b l) :
    ∀ q ∈ l, ValidPos w h q ∧ pred q = true := by
  induction l generalizing b with
  | nil =>
      intro q hq
      cases hq
  | cons x t ih =>
      rcases List.chain_cons.1 hch with ⟨hstep, htail⟩
      intro q hq
      rcases List.mem_cons.1 hq with rfl | hql
      · exact ⟨hstep.2.1, hstep.2.2⟩
      · exact ih htail q hql

/-- Border reachability, in explicit-path form: a 4-connected chain of valid
near-background pixels from some border pixel to `p`. -/
theorem reach_iff_path {p : Pos} :
    Reach w h pred p ↔
      ∃ b l, BorderPos w h b ∧ List.Chain Adj b l ∧
        (∀ q ∈ b :: l, ValidPos w h q ∧ pred q = true) ∧
        (b :: l).getLast (List.cons_ne_nil b l) = p := by
  constructor
  · intro hp
    have hrtg : ∃ b, BorderPos w h b ∧ pred b = true ∧
        Relation.ReflTransGen
          (fun x y => Adj x y ∧ ValidPos w h y ∧ pred y = true) b p := by
      induction hp with
      | base hb hpr => exact ⟨_, hb, hpr, Relation.ReflTransGen.refl⟩
      | step hr hadj hv hpr ih =>
          obtain ⟨b, hb, hbp, hchain⟩ := ih
          exact ⟨b, hb, hbp, hchain.tail ⟨hadj, hv, hpr⟩⟩
    obtain ⟨b, hb, hbp, hchain⟩ := hrtg
    obtain ⟨l, hch, hlast⟩ := List.exists_chain_of_relationReflTransGen hchain
    refine ⟨b, l, hb, hch.imp fun x y hxy => hxy.1, ?_, hlast⟩
    intro q hq
    rcases List.mem_cons.1 hq with rfl | hql
    · exact ⟨hb.1, hbp⟩
    · exact chain_step_members hch q hql
  · rintro ⟨b, l, hb, hch, hmem, hlast⟩
    have hbreach : Reach w h pred b :=
      Reach.base hb (hmem b (List.mem_cons_self b l)).2
    exact reach_of_chain hbreach
      (fun q hq => hmem q (List.mem_cons_of_mem b hq)) hch hlast

theorem reach_congr {pred' : Pos → Bool}
    (hpp : ∀ p, ValidPos w h p → pred p = pred' p) {p : Pos}
    (hp : Reach w h pred p) : Reach w h pred' p := by
  induction hp with
  | base hb hpr => exact Reach.base hb ((hpp _ hb.1) ▸ hpr)
  | step hr hadj hv hpr ih => exact Reach.step ih hadj hv ((hpp _ hv) ▸ hpr)

/-- The flood fill result depends only on the predicate's values inside the
grid, and not on the worklist discipline. -/
theorem floodFill_congr {pred' : Pos → Bool} {lifo lifo' : Bool}
    (hpp : ∀ p, ValidPos w h p → pred p = pred' p) :
    floodFill w h pred lifo = floodFill w h pred' lifo' := by
  ext p
  rw [mem_floodFill_iff, mem_floodFill_iff]
  exact ⟨reach_congr hpp, reach_congr fun p hv => (hpp p hv).symm⟩

theorem floodFill_subset_grid {lifo : Bool} :
    floodFill w h pred lifo ⊆ gridF w h :=
  fun p hp => mem_gridF.2 (mem_floodFill_iff.1 hp).valid

end FloodCorrect

/-! ### WCAG contrast arithmetic, idealised over `ℝ` -/

/-- sRGB transfer function (`srgbToLinear` in both sources). -/
noncomputable def srgbToLinear (c : ℝ) : ℝ :=
  if c ≤ 0.04045 then c / 12.92 else ((c + 0.055) / 1.055) ^ (2.4 : ℝ)

/-- WCAG relative luminance (`relLuminance` in both sources). -/
noncomputable def relLuminance (r8 g8 b8 : ℝ) : ℝ :=
  0.2126 * srgbToLinear (r8 / 255) + 0.7152 * srgbToLinear (g8 / 255) +
    0.0722 * srgbToLinear (b8 / 255)

/-- Alpha-composite one channel onto an opaque background channel and round to
the nearest integer (`composite` in the batch source, inlined in the browser
source); `Math.round x` is `⌊x + 1/2⌋` on these inputs. -/
noncomputable def compositeChannel (a8 c bgc : ℝ) : ℤ :=
  round (a8 / 255 * c + (1 - a8 / 255) * bgc)

/-- WCAG contrast ratio of a pixel composited over an opaque background
(`contrastRatioPixelVsBg` in both sources). -/
noncomputable def contrastRatioPixelVsBg (px : Pixel) (bg : RGB) : ℝ :=
  let cr := compositeChannel px.a px.r bg.r
  let cg := compositeChannel px.a px.g bg.g
  let cb := compositeChannel px.a px.b bg.b
  let lp := relLuminance cr cg cb
  let lb := relLuminance bg.r bg.g bg.b
  (max lp lb + 0.05) / (min lp lb + 0.05)

/-! ### Percentile and summary statistics -/

/-- Linear-interpolation percentile (`percentile` in both sources): `null`
(`none`) on an empty list, else interpolate between the order statistics at
`⌊idx⌋` and `⌈idx⌉` where `idx = (length - 1) · p`.  Out-of-range access, which
in the source would read `undefined`, is modelled by `getD` with default 0; it
never happens for `0 ≤ p ≤ 1`. -/
def percentile {α : Type} [LinearOrderedField α] [FloorRing α]
    (sorted : List α) (p : α) : Option α :=
  if sorted.length = 0 then none
  else
    let idx : α := ((sorted.length : α) - 1) * p
    let lo : ℤ := ⌊idx⌋
    let hi : ℤ := ⌈idx⌉
    if lo = hi then some (sorted.getD lo.toNat 0)
    else
      some (sorted.getD lo.toNat 0 * (1 - (idx - lo)) +
        sorted.getD hi.toNat 0 * (idx - lo))

/-- Ascending numeric sort, as done by `sort((a, b) => a - b)` in both
sources. -/
noncomputable def sortRatios (l : List ℝ) : List ℝ :=
  l.insertionSort (· ≤ ·)

/-- Per-background summary statistics (`statsForRatios` in the batch source;
the browser source computes the same fields inline). -/
structure Stats where
  count : ℕ
  min : Option ℝ
  pX : Option ℝ
  median : Option ℝ
  pctBelow : ℝ

/-- `statsForRatios(ratios, p, below)` of the batch source. -/
noncomputable def statsForRatios (ratios : List ℝ) (p below : ℝ) : Stats :=
  if ratios.length = 0 then ⟨0, none, none, none, 0⟩
  else
    let s := sortRatios ratios
    let pctBelow : ℝ :=
      100 * ((ratios.filter fun x => decide (x < below)).length : ℝ) /
        (ratios.length : ℝ)
    ⟨ratios.length, s.head?, percentile s p, percentile s (0.5 : ℝ), pctBelow⟩

/-- `passByStats` of the batch source: fail on an empty sample, else require
the percentile to clear the threshold and the below-threshold percentage to
stay within bounds. -/
noncomputable def passByStats (st : Stats) (threshold maxPctBelow : ℝ) : Bool :=
  if st.count = 0 then false
  else
    match st.pX with
    | none => false
    | some v => decide (threshold ≤ v) && decide (st.pctBelow ≤ maxPctBelow)

/-! ### Shared mask builders -/

/-- Row-major traversal order of the grid (`i = y * width + x` increasing in
the browser source, nested `y`/`x` loops in the batch source). -/
def rowMajor (w h : ℕ) : List Pos :=
  (List.range h).bind fun y => (List.range w).map fun x => (x, y)

theorem mem_rowMajor {w h : ℕ} {p : Pos} :
    p ∈ rowMajor w h ↔ ValidPos w h p := by
  cases p with
  | mk x y =>
    simp only [rowMajor, List.mem_bind, List.mem_map, List.mem_range, ValidPos]
    constructor
    · rintro ⟨b, hb, a, ha, heq⟩
      cases heq
      exact ⟨ha, hb⟩
    · rintro ⟨hx, hy⟩
      exact ⟨y, hy, x, hx, rfl⟩

/-- Edge band around the background (`band` in both sources): a non-background
grid pixel belongs to the band when some background pixel lies in its clipped
`(2r+1) × (2r+1)` Chebyshev neighbourhood. -/
def bandMask (w h radius : ℕ) (bg : Finset Pos) : Finset Pos :=
  (gridF w h).filter fun p => p ∉ bg ∧
    ∃ q ∈ gridF w h, q ∈ bg ∧ p.1 - q.1 ≤ radius ∧ q.1 - p.1 ≤ radius ∧
      p.2 - q.2 ≤ radius ∧ q.2 - p.2 ≤ radius

/-- Last-resort border band of the browser source (tier 3): pixels within
`edge = max(0, bandRadius)` of any grid edge; `bandRadius` is a `ℕ` here so the
`max` is the identity. -/
def borderBandMask (w h e : ℕ) : Finset Pos :=
  (gridF w h).filter fun p =>
    p.1 ≤ e ∨ p.2 ≤ e ∨ w - 1 - e ≤ p.1 ∨ h - 1 - e ≤ p.2

/-! ### Browser path (`web/app.js`, `analyze`) -/

/-- Sampling mode of the browser path. -/
inductive SampleMode where
  | band : SampleMode
  | all : SampleMode
  | stroke : SampleMode

deriving instance DecidableEq for SampleMode

/-- Configuration surface of the browser path (`getOpts`). -/
structure WebCfg where
  bg : RGB
  segBg : RGB
  threshold : ℝ
  maxPctBelow : ℝ
  p : ℝ
  nearBgDist : ℕ
  bandRadius : ℕ
  alphaBg : ℕ
  minAlpha : ℕ
  sampleMode : SampleMode
  strokeLumaMax : ℝ

/-- Replace only the sampling mode of a configuration. -/
def setMode (cfg : WebCfg) (m : SampleMode) : WebCfg :=
  ⟨cfg.bg, cfg.segBg, cfg.threshold, cfg.maxPctBelow, cfg.p, cfg.nearBgDist,
    cfg.bandRadius, cfg.alphaBg, cfg.minAlpha, m, cfg.strokeLumaMax⟩

/-- The browser path's pixel predicate: `isNearBg` applied to the pixel at a
grid position. -/
def webPredB (img : Img) (cfg : WebCfg) (p : Pos) : Bool :=
  isNearBg cfg.segBg cfg.alphaBg cfg.nearBgDist (img.px p.1 p.2)

/-- Tier-1 background mask of the browser path: FIFO border-seeded flood
fill. -/
def webTier1 (img : Img) (cfg : WebCfg) : Finset Pos :=
  floodFill img.w img.h (webPredB img cfg) false

/-- Background mask after the tier-2 fallback: if the flood fill marked
nothing, mark every pixel satisfying the predicate, ignoring connectivity. -/
def webBgMask (img : Img) (cfg : WebCfg) : Finset Pos :=
  if webTier1 img cfg = ∅ then
    (gridF img.w img.h).filter fun p => webPredB img cfg p = true
  else webTier1 img cfg

/-- Band mask of the browser path: the tier-3 border band when even tier 2
marked nothing, else the edge band around the background. -/
def webBandMask (img : Img) (cfg : WebCfg) : Finset Pos :=
  if webBgMask img cfg = ∅ then borderBandMask img.w img.h cfg.bandRadius
  else bandMask img.w img.h cfg.bandRadius (webBgMask img cfg)

/-- Sample mask of the browser path, per sampling mode: the band itself, every
non-background pixel, or the dark-stroke subset of the band. -/
noncomputable def webSampleMask (img : Img) (cfg : WebCfg) : Finset Pos :=
  match cfg.sampleMode with
  | SampleMode.band => webBandMask img cfg
  | SampleMode.all => (gridF img.w img.h).filter fun p => p ∉ webBgMask img cfg
  | SampleMode.stroke =>
      (webBandMask img cfg).filter fun p =>
        relLuminance (img.px p.1 p.2).r (img.px p.1 p.2).g (img.px p.1 p.2).b ≤
          cfg.strokeLumaMax

/-- Pixels actually scored by the browser path's ratio loop: sample-mask
pixels whose alpha clears `minAlpha`, in row-major order. -/
noncomputable def webRatioCoords (img : Img) (cfg : WebCfg) : List Pos :=
  (rowMajor img.w img.h).filter fun p =>
    decide (p ∈ webSampleMask img cfg) && decide (cfg.minAlpha ≤ (img.px p.1 p.2).a)

/-- Contrast ratios collected by the browser path. -/
noncomputable def webRatios (img : Img) (cfg : WebCfg) : List ℝ :=
  (webRatioCoords img cfg).map fun p =>
    contrastRatioPixelVsBg (img.px p.1 p.2) cfg.bg

/-- Diagnostic failing-pixel mask of the browser path: scored pixels whose
ratio falls below the threshold. -/
noncomputable def webFailingMask (img : Img) (cfg : WebCfg) : Finset Pos :=
  (webSampleMask img cfg).filter fun p =>
    cfg.minAlpha ≤ (img.px p.1 p.2).a ∧
      contrastRatioPixelVsBg (img.px p.1 p.2) cfg.bg < cfg.threshold

/-- Result record of the browser path's `analyze`: the stats object (whose
`bandCount` field is kept separate here), the pass verdict, and the failing
mask. -/
structure WebResult where
  stats : Stats
  bandCount : ℕ
  pass : Bool
  failing : Finset Pos

/-- Summary statistics of the browser path (the `stats` object built at the
end of `analyze`, apart from its `bandCount` field). -/
noncomputable def webStats (img : Img) (cfg : WebCfg) : Stats :=
  let ratios := webRatios img cfg
  let sorted := sortRatios ratios
  let pctBelow : ℝ :=
    if ratios.length = 0 then 0
    else
      100 * ((sorted.filter fun x => decide (x < cfg.threshold)).length : ℝ) /
        (ratios.length : ℝ)
  ⟨ratios.length, sorted.head?, percentile sorted cfg.p,
    percentile sorted (0.5 : ℝ), pctBelow⟩

/-- Pass verdict of the browser path (`stats.count > 0 && stats.pX >=
threshold && stats.pctBelow <= maxPctBelow`). -/
noncomputable def webPass (img : Img) (cfg : WebCfg) : Bool :=
  decide (0 < (webStats img cfg).count) &&
    match (webStats img cfg).pX with
    | none => false
    | some v =>
        decide (cfg.threshold ≤ v) &&
          decide ((webStats img cfg).pctBelow ≤ cfg.maxPctBelow)

/-- The browser path's `analyze`, after decode: segmentation with fallbacks,
sample-mask construction, ratio collection, summary statistics, and the pass
verdict. -/
noncomputable def webAnalyze (img : Img) (cfg : WebCfg) : WebResult :=
  ⟨webStats img cfg, (webSampleMask img cfg).card, webPass img cfg,
    webFailingMask img cfg⟩

theorem webStats_count (img : Img) (cfg : WebCfg) :
    (webStats img cfg).count = (webRatios img cfg).length := rfl

theorem webStats_pX (img : Img) (cfg : WebCfg) :
    (webStats img cfg).pX = percentile (sortRatios (webRatios img cfg)) cfg.p :=
  rfl

theorem webStats_pctBelow (img : Img) (cfg : WebCfg) :
    (webStats img cfg).pctBelow =
      if (webRatios img cfg).length = 0 then (0 : ℝ)
      else
        100 * (((sortRatios (webRatios img cfg)).filter
            fun x => decide (x < cfg.threshold)).length : ℝ) /
          ((webRatios img cfg).length : ℝ) := rfl

/-! ### Batch path (`symbol_contrast.js`, `analyzeOne`) -/

/-- Configuration surface of the batch path (its `opts`, restricted to the
fields the core reads). -/
structure CliCfg where
  nearBgDist : ℕ
  bandRadius : ℕ
  threshold : ℝ
  maxPctBelow : ℝ
  p : ℝ
  requireBoth : Bool
  backgrounds : List RGB
  segBg : RGB
  alphaBg : ℕ

/-- The batch path's pixel predicate. -/
def cliPredB (img : Img) (cfg : CliCfg) (p : Pos) : Bool :=
  isNearBg cfg.segBg cfg.alphaBg cfg.nearBgDist (img.px p.1 p.2)

/-- Background mask of the batch path: LIFO border-seeded flood fill, with no
fallback tiers. -/
def cliBgMask (img : Img) (cfg : CliCfg) : Finset Pos :=
  floodFill img.w img.h (cliPredB img cfg) true

/-- Edge band of the batch path. -/
def cliBandMask (img : Img) (cfg : CliCfg) : Finset Pos :=
  bandMask img.w img.h cfg.bandRadius (cliBgMask img cfg)

/-- Row-major list of band pixels scored by `collectRatios` (the batch path
has no alpha gate). -/
def cliRatioCoords (img : Img) (cfg : CliCfg) : List Pos :=
  (rowMajor img.w img.h).filter fun p => decide (p ∈ cliBandMask img cfg)

/-- Contrast ratios collected by the batch path against one background. -/
noncomputable def cliRatios (img : Img) (cfg : CliCfg) (bg : RGB) : List ℝ :=
  (cliRatioCoords img cfg).map fun p =>
    contrastRatioPixelVsBg (img.px p.1 p.2) bg

/-- Worst (lowest-ratio) sample tracked by `collectRatios`: the scan starts at
`Infinity` and keeps the first strictly smaller ratio, so it retains the first
row-major occurrence of the minimum. -/
noncomputable def cliWorst (img : Img) (cfg : CliCfg) (bg : RGB) :
    Option (ℝ × Pixel × Pos) :=
  (cliRatioCoords img cfg).foldl
    (fun acc p =>
      let cr := contrastRatioPixelVsBg (img.px p.1 p.2) bg
      match acc with
      | none => some (cr, img.px p.1 p.2, p)
      | some best => if cr < best.1 then some (cr, img.px p.1 p.2, p) else acc)
    none

/-- Per-background report of `collectRatios`: stats, pass verdict, and worst
sample. -/
structure CliBgReport where
  stats : Stats
  pass : Bool
  worst : Option (ℝ × Pixel × Pos)

/-- `collectRatios(mask, bgColor)` of the batch path, followed by the pass
rule. -/
noncomputable def cliCollect (img : Img) (cfg : CliCfg) (bg : RGB) :
    CliBgReport :=
  let ratios := cliRatios img cfg bg
  let st := statsForRatios ratios cfg.p cfg.threshold
  ⟨st, passByStats st cfg.threshold cfg.maxPctBelow, cliWorst img cfg bg⟩

/-- Result record of the batch path's `analyzeOne` core. -/
structure CliResult where
  fgPixels : ℕ
  bandPixels : ℕ
  reports : List CliBgReport
  overall : Bool

/-- The batch path's `analyzeOne`, after decode: flood fill, foreground count,
edge band, per-background collection, and the overall verdict (`every` under
`requireBoth`, else `some`). -/
noncomputable def cliAnalyze (img : Img) (cfg : CliCfg) : CliResult :=
  let bg := cliBgMask img cfg
  let fg := (gridF img.w img.h).filter fun p => p ∉ bg
  let band := cliBandMask img cfg
  let reports := cfg.backgrounds.map fun c => cliCollect img cfg c
  let overall :=
    if cfg.requireBoth then reports.all (fun r => r.pass)
    else reports.any (fun r => r.pass)
  ⟨fg.card, band.card, reports, overall⟩

/-! ### Claim C1: the pass rule -/

theorem percentile_eq_some {α : Type} [LinearOrderedField α] [FloorRing α]
    {s : List α} (hs : s.length ≠ 0) (p : α) : ∃ v, percentile s p = some v := by
  unfold percentile
  rw [if_neg hs]
  dsimp only
  split
  · exact ⟨_, rfl⟩
  · exact ⟨_, rfl⟩

theorem length_sortRatios (l : List ℝ) : (sortRatios l).length = l.length :=
  List.length_insertionSort (fun a b => a ≤ b) l

/-- C1: for every ratio sequence, the per-background verdict is true exactly
when the sample count is positive, the percentile-at-`p` is at least the
contrast threshold, and the percent-below-threshold is at most its allowed
maximum; in particular an empty ratio sequence always fails.  The browser
path's inline verdict obeys the same rule. -/
theorem claim1_pass_rule :
    (∀ (ratios : List ℝ) (p t m : ℝ),
      (passByStats (statsForRatios ratios p t) t m = true ↔
        0 < ratios.length ∧
          t ≤ ((statsForRatios ratios p t).pX).getD 0 ∧
          (statsForRatios ratios p t).pctBelow ≤ m) ∧
      passByStats (statsForRatios [] p t) t m = false) ∧
    (∀ (img : Img) (cfg : WebCfg),
      (webAnalyze img cfg).pass = true ↔
        0 < (webAnalyze img cfg).stats.count ∧
          cfg.threshold ≤ ((webAnalyze img cfg).stats.pX).getD 0 ∧
          (webAnalyze img cfg).stats.pctBelow ≤ cfg.maxPctBelow) := by
  have hempty : ∀ p t m : ℝ, passByStats (statsForRatios [] p t) t m = false := by
    intro p t m
    simp [statsForRatios, passByStats]
  constructor
  · intro ratios p t m
    refine ⟨?_, hempty p t m⟩
    by_cases hlen : ratios.length = 0
    · rw [List.length_eq_zero.1 hlen]
      rw [hempty p t m]
      simp
    · obtain ⟨v, hv⟩ := percentile_eq_some
        (s := sortRatios ratios) (by rw [length_sortRatios]; exact hlen) p
      have hpos : 0 < ratios.length := Nat.pos_of_ne_zero hlen
      have hstats : statsForRatios ratios p t =
          ⟨ratios.length, (sortRatios ratios).head?,
            percentile (sortRatios ratios) p,
            percentile (sortRatios ratios) (0.5 : ℝ),
            100 * ((ratios.filter fun x => decide (x < t)).length : ℝ) /
              (ratios.length : ℝ)⟩ := by
        unfold statsForRatios
        rw [if_neg hlen]
      rw [hstats]
      unfold passByStats
      dsimp only
      rw [if_neg hlen, hv]
      simp only [Bool.and_eq_true, decide_eq_true_eq, Option.getD_some]
      constructor
      · rintro ⟨h1, h2⟩
        exact ⟨hpos, h1, h2⟩
      · rintro ⟨-, h1, h2⟩
        exact ⟨h1, h2⟩
  · intro img cfg
    show webPass img cfg = true ↔
      0 < (webStats img cfg).count ∧
        cfg.threshold ≤ ((webStats img cfg).pX).getD 0 ∧
        (webStats img cfg).pctBelow ≤ cfg.maxPctBelow
    by_cases hlen : (webRatios img cfg).length = 0
    · have hcount : (webStats img cfg).count = 0 := hlen
      constructor
      · intro hpass
        unfold webPass at hpass
        rw [hcount] at hpass
        simp at hpass
      · rintro ⟨hposc, -, -⟩
        rw [hcount] at hposc
        exact absurd hposc (lt_irrefl 0)
    · obtain ⟨v, hv⟩ := percentile_eq_some
        (s := sortRatios (webRatios img cfg))
        (by rw [length_sortRatios]; exact hlen) cfg.p
      have hvX : (webStats img cfg).pX = some v := by
        rw [webStats_pX]
        exact hv
      have hpos : 0 < (webStats img cfg).count := by
        rw [webStats_count]
        exact Nat.pos_of_ne_zero hlen
      unfold webPass
      rw [hvX]
      simp only [Bool.and_eq_true, decide_eq_true_eq, Option.getD_some]

/-! ### Shared concrete scenarios -/

/-- Spec §8 scenario-B layout: 10×10, opaque white, with an opaque
`(130,130,130)` square covering `x, y ∈ [3, 6]`. -/
def imgGray : Img :=
  ⟨10, 10, fun x y =>
    if 3 ≤ x ∧ x ≤ 6 ∧ 3 ≤ y ∧ y ≤ 6 then ⟨130, 130, 130, 255⟩
    else ⟨255, 255, 255, 255⟩⟩

/-- Batch configuration of the scenarios: defaults with a single white
evaluation background. -/
def cfgGray : CliCfg :=
  ⟨160, 2, 3, 2, 0.05, false, [⟨255, 255, 255⟩], ⟨255, 255, 255⟩, 10⟩

/-- Full-bleed 7×7 image: opaque black everywhere, so no pixel is ever
near-background against white. -/
def imgBleed : Img :=
  ⟨7, 7, fun _ _ => ⟨0, 0, 0, 255⟩⟩

/-- Browser configuration for the full-bleed scenario (`bandRadius = 1`,
Band mode). -/
def cfgBleed : WebCfg :=
  ⟨⟨255, 255, 255⟩, ⟨255, 255, 255⟩, 3, 2, 0.05, 160, 1, 10, 200,
    SampleMode.band, 0.4⟩

/-- 5×5 opaque-white image with one semi-transparent (alpha 100) dark centre
pixel. -/
def imgFringe : Img :=
  ⟨5, 5, fun x y =>
    if x = 2 ∧ y = 2 then ⟨0, 0, 0, 100⟩ else ⟨255, 255, 255, 255⟩⟩

/-- The same pixel grid as `imgFringe` built from a different lookup closure
(junk values outside the grid). -/
def imgFringe2 : Img :=
  ⟨5, 5, fun x y =>
    if 5 ≤ x ∨ 5 ≤ y then ⟨7, 7, 7, 7⟩
    else if x = 2 ∧ y = 2 then ⟨0, 0, 0, 100⟩ else ⟨255, 255, 255, 255⟩⟩

/-- Browser configuration for the fringe scenario (`minAlpha = 200`). -/
def cfgFringe : WebCfg :=
  ⟨⟨255, 255, 255⟩, ⟨255, 255, 255⟩, 3, 2, 0.05, 160, 2, 10, 200,
    SampleMode.band, 0.4⟩

/-- Fringe configuration with the alpha gate lowered to 50, so the centre
pixel is scored. -/
def cfgFringeLow : WebCfg :=
  ⟨⟨255, 255, 255⟩, ⟨255, 255, 255⟩, 3, 2, 0.05, 160, 2, 10, 50,
    SampleMode.band, 0.4⟩

/-! ### Claim C2: tier-1 background mask is border reachability -/

/-- C2: under the primary tier, a pixel is in the background mask exactly when
some 4-connected path of pixels, each valid and near-background, runs from a
border pixel to it; a near-background pixel enclosed by foreground with no
such path is therefore never in the mask. -/
theorem claim2_tier1_reachability (img : Img) (cfg : WebCfg) (p : Pos) :
    p ∈ webTier1 img cfg ↔
      ∃ b l, BorderPos img.w img.h b ∧ List.Chain Adj b l ∧
        (∀ q ∈ b :: l, ValidPos img.w img.h q ∧ webPredB img cfg q = true) ∧
        (b :: l).getLast (List.cons_ne_nil b l) = p := by
  unfold webTier1
  rw [mem_floodFill_iff, reach_iff_path]

/-! ### Claim C10: worklist discipline does not matter -/

/-- C10: on any pixel buffer, with segmentation parameters agreeing, the batch
path's LIFO flood fill and the browser path's FIFO flood fill produce the same
background mask. -/
theorem claim10_lifo_fifo_equal (img : Img) (ccfg : CliCfg) (wcfg : WebCfg)
    (hseg : ccfg.segBg = wcfg.segBg) (halpha : ccfg.alphaBg = wcfg.alphaBg)
    (hdist : ccfg.nearBgDist = wcfg.nearBgDist) :
    cliBgMask img ccfg = webTier1 img wcfg := by
  unfold cliBgMask webTier1
  refine floodFill_congr ?_
  intro p _
  unfold cliPredB webPredB
  rw [hseg, halpha, hdist]

set_option maxRecDepth 40000 in
/-- Witness for C10: the fringe scenario, analysed with matching batch and
browser configurations. -/
theorem claim10_witness :
    cliBgMask imgFringe cfgGray = webTier1 imgFringe cfgFringe :=
  claim10_lifo_fifo_equal imgFringe cfgGray cfgFringe rfl rfl rfl

/-! ### Claim C6: sample mask versus background complement -/

theorem bandMask_subset {w h radius : ℕ} {bg : Finset Pos} :
    bandMask w h radius bg ⊆ gridF w h \ bg := by
  intro p hp
  rw [bandMask, Finset.mem_filter] at hp
  exact Finset.mem_sdiff.2 ⟨hp.1, hp.2.1⟩

theorem webBandMask_subset_compl (img : Img) (cfg : WebCfg) :
    webBandMask img cfg ⊆ gridF img.w img.h \ webBgMask img cfg := by
  unfold webBandMask
  by_cases hbg : webBgMask img cfg = ∅
  · rw [if_pos hbg, hbg, Finset.sdiff_empty]
    exact Finset.filter_subset _ _
  · rw [if_neg hbg]
    exact bandMask_subset

/-- C6: the browser path's sample mask is contained in the complement of the
background mask in Band and Stroke modes and equals it exactly in All mode,
and the batch path's band is likewise contained in the complement of its
background mask. -/
theorem claim6_sample_mask_invariant (img : Img) (cfg : WebCfg) (ccfg : CliCfg) :
    webSampleMask img (setMode cfg SampleMode.band) ⊆
        gridF img.w img.h \ webBgMask img cfg ∧
    webSampleMask img (setMode cfg SampleMode.stroke) ⊆
        gridF img.w img.h \ webBgMask img cfg ∧
    webSampleMask img (setMode cfg SampleMode.all) =
        gridF img.w img.h \ webBgMask img cfg ∧
    cliBandMask img ccfg ⊆ gridF img.w img.h \ cliBgMask img ccfg := by
  have hband : webSampleMask img (setMode cfg SampleMode.band) =
      webBandMask img cfg := rfl
  have hbg : webBgMask img (setMode cfg SampleMode.stroke) = webBgMask img cfg :=
    rfl
  refine ⟨?_, ?_, ?_, ?_⟩
  · rw [hband]
    exact webBandMask_subset_compl img cfg
  · intro p hp
    have hp' : p ∈ webBandMask img cfg := Finset.mem_filter.1 hp |>.1
    exact webBandMask_subset_compl img cfg hp'
  · show (gridF img.w img.h).filter (fun p => p ∉ webBgMask img cfg) =
      gridF img.w img.h \ webBgMask img cfg
    rw [Finset.sdiff_eq_filter]
  · exact bandMask_subset

/-! ### Claim C7: the minimum-alpha gate -/

/-- C7 (amended): in every sample mode of the browser path, a pixel whose
alpha is below `minAlpha` contributes no contrast ratio — it is excluded from
the scored coordinate list, and the stats count only counts scored pixels.
(It does remain in the sample mask and in the sample-mask pixel count, and the
batch path has no alpha gate at all.) -/
theorem claim7_alpha_gate (img : Img) (cfg : WebCfg) :
    (∀ p ∈ webRatioCoords img cfg, cfg.minAlpha ≤ (img.px p.1 p.2).a) ∧
    (webAnalyze img cfg).stats.count = (webRatioCoords img cfg).length := by
  constructor
  · intro p hp
    rw [webRatioCoords, List.mem_filter] at hp
    have := hp.2
    rw [Bool.and_eq_true, decide_eq_true_eq, decide_eq_true_eq] at this
    exact this.2
  · show (webStats img cfg).count = _
    rw [webStats_count, webRatios, List.length_map]

set_option maxRecDepth 40000 in
/-- Witness for C7: with the gate lowered to 50, the fringe centre pixel is
scored and clears the gate. -/
theorem claim7_witness :
    cfgFringeLow.minAlpha ≤ (imgFringe.px 2 2).a ∧
    (webAnalyze imgFringe cfgFringeLow).stats.count =
      (webRatioCoords imgFringe cfgFringeLow).length :=
  ⟨(claim7_alpha_gate imgFringe cfgFringeLow).1 (2, 2) (by decide),
    (claim7_alpha_gate imgFringe cfgFringeLow).2⟩

set_option maxRecDepth 40000 in
/-- Counterexample to C7 as stated: the semi-transparent centre pixel (alpha
100 < minAlpha 200) stays in the sample mask and is counted in the
sample-mask pixel count, though it is never scored. -/
theorem claim7_counterexample :
    (imgFringe.px 2 2).a < cfgFringe.minAlpha ∧
    (2, 2) ∈ webSampleMask imgFringe cfgFringe ∧
    (webAnalyze imgFringe cfgFringe).bandCount = 1 ∧
    (2, 2) ∉ webRatioCoords imgFringe cfgFringe := by
  refine ⟨by decide, by decide, ?_, by decide⟩
  show (webSampleMask imgFringe cfgFringe).card = 1
  decide

/-! ### Claim C3: fallback tiers -/

/-- C3 (amended): if tier 1 marks nothing, the background mask is the global
near-background filter (tier 2); if that is empty too, the background mask is
empty and the band mask falls back to the fixed border band — which Band mode
samples directly, while All mode samples the whole grid (the complement of the
empty background mask) and Stroke mode samples the luminance-filtered border
band. -/
theorem claim3_fallback_tiers (img : Img) (cfg : WebCfg)
    (h1 : webTier1 img cfg = ∅) :
    webBgMask img cfg =
      (gridF img.w img.h).filter (fun p => webPredB img cfg p = true) ∧
    ((gridF img.w img.h).filter (fun p => webPredB img cfg p = true) = ∅ →
      webBgMask img cfg = ∅ ∧
      webBandMask img cfg = borderBandMask img.w img.h cfg.bandRadius ∧
      webSampleMask img (setMode cfg SampleMode.band) =
        borderBandMask img.w img.h cfg.bandRadius ∧
      webSampleMask img (setMode cfg SampleMode.all) = gridF img.w img.h ∧
      webSampleMask img (setMode cfg SampleMode.stroke) =
        (borderBandMask img.w img.h cfg.bandRadius).filter
          (fun p => relLuminance (img.px p.1 p.2).r (img.px p.1 p.2).g
            (img.px p.1 p.2).b ≤ cfg.strokeLumaMax)) := by
  have hbg : webBgMask img cfg =
      (gridF img.w img.h).filter (fun p => webPredB img cfg p = true) := by
    unfold webBgMask
    rw [if_pos h1]
  refine ⟨hbg, ?_⟩
  intro h2
  have hbg0 : webBgMask img cfg = ∅ := by rw [hbg, h2]
  have hband : webBandMask img cfg =
      borderBandMask img.w img.h cfg.bandRadius := by
    unfold webBandMask
    rw [if_pos hbg0]
  refine ⟨hbg0, hband, hband, ?_, ?_⟩
  · show (gridF img.w img.h).filter (fun p => p ∉ webBgMask img cfg) =
      gridF img.w img.h
    refine Finset.filter_true_of_mem ?_
    intro x _
    rw [hbg0]
    exact Finset.not_mem_empty x
  · show (webBandMask img cfg).filter
      (fun p => relLuminance (img.px p.1 p.2).r (img.px p.1 p.2).g
        (img.px p.1 p.2).b ≤ cfg.strokeLumaMax) = _
    rw [hband]

set_option maxRecDepth 40000 in
/-- Witness for C3: the full-bleed black image triggers tiers 2 and 3. -/
theorem claim3_witness :
    webBgMask imgBleed cfgBleed = ∅ ∧
    webSampleMask imgBleed (setMode cfgBleed SampleMode.band) =
      borderBandMask 7 7 1 ∧
    webSampleMask imgBleed (setMode cfgBleed SampleMode.all) = gridF 7 7 := by
  have h := (claim3_fallback_tiers imgBleed cfgBleed (by decide)).2 (by decide)
  exact ⟨h.1, h.2.2.1, h.2.2.2.1⟩

set_option maxRecDepth 40000 in
/-- Counterexample to C3 as stated: with segmentation fully abstained, in All
mode the sample mask is the whole grid, not the border band — pixel `(3,3)`
is sampled but lies outside the band, so the fallback is not independent of
`sampleMode`. -/
theorem claim3_counterexample :
    webTier1 imgBleed cfgBleed = ∅ ∧
    (gridF 7 7).filter (fun p => webPredB imgBleed cfgBleed p = true) = ∅ ∧
    (3, 3) ∈ webSampleMask imgBleed (setMode cfgBleed SampleMode.all) ∧
    (3, 3) ∉ borderBandMask 7 7 1 :=
  ⟨by decide, by decide, by decide, by decide⟩

/-! ### Claim C4: WCAG ratio bounds -/

theorem srgbToLinear_nonneg {c : ℝ} (hc : 0 ≤ c) : 0 ≤ srgbToLinear c := by
  unfold srgbToLinear
  split
  · positivity
  · positivity

theorem srgbToLinear_le_one {c : ℝ} (hc : c ≤ 1) : srgbToLinear c ≤ 1 := by
  unfold srgbToLinear
  split
  case isTrue h =>
    rw [div_le_one (by norm_num : (0:ℝ) < 12.92)]
    linarith
  case isFalse h =>
    push_neg at h
    have h0 : 0 ≤ (c + 0.055) / 1.055 := by positivity
    have h1 : (c + 0.055) / 1.055 ≤ 1 := by
      rw [div_le_one (by norm_num : (0:ℝ) < 1.055)]
      linarith
    exact Real.rpow_le_one h0 h1 (by norm_num)

theorem relLuminance_nonneg {r g b : ℝ} (hr : 0 ≤ r) (hg : 0 ≤ g)
    (hb : 0 ≤ b) : 0 ≤ relLuminance r g b := by
  unfold relLuminance
  have h1 := srgbToLinear_nonneg (c := r / 255) (by positivity)
  have h2 := srgbToLinear_nonneg (c := g / 255) (by positivity)
  have h3 := srgbToLinear_nonneg (c := b / 255) (by positivity)
  nlinarith

theorem relLuminance_le_one {r g b : ℝ} (hr : r ≤ 255) (hg : g ≤ 255)
    (hb : b ≤ 255) : relLuminance r g b ≤ 1 := by
  unfold relLuminance
  have h1 := srgbToLinear_le_one (c := r / 255)
    (by rw [div_le_one (by norm_num : (0:ℝ) < 255)]; linarith)
  have h2 := srgbToLinear_le_one (c := g / 255)
    (by rw [div_le_one (by norm_num : (0:ℝ) < 255)]; linarith)
  have h3 := srgbToLinear_le_one (c := b / 255)
    (by rw [div_le_one (by norm_num : (0:ℝ) < 255)]; linarith)
  nlinarith

theorem compositeChannel_nonneg {a8 c bgc : ℝ} (ha0 : 0 ≤ a8) (ha1 : a8 ≤ 255)
    (hc0 : 0 ≤ c) (hb0 : 0 ≤ bgc) : 0 ≤ compositeChannel a8 c bgc := by
  unfold compositeChannel
  rw [round_eq]
  refine Int.floor_nonneg.2 ?_
  have hα0 : 0 ≤ a8 / 255 := by positivity
  have hα1 : a8 / 255 ≤ 1 := by
    rw [div_le_one (by norm_num : (0:ℝ) < 255)]
    linarith
  nlinarith

theorem compositeChannel_le {a8 c bgc : ℝ} (ha0 : 0 ≤ a8) (ha1 : a8 ≤ 255)
    (hc0 : 0 ≤ c) (hc1 : c ≤ 255) (hb0 : 0 ≤ bgc) (hb1 : bgc ≤ 255) :
    compositeChannel a8 c bgc ≤ 255 := by
  unfold compositeChannel
  rw [round_eq]
  have hα0 : 0 ≤ a8 / 255 := by positivity
  have hα1 : a8 / 255 ≤ 1 := by
    rw [div_le_one (by norm_num : (0:ℝ) < 255)]
    linarith
  have hfl : ⌊a8 / 255 * c + (1 - a8 / 255) * bgc + 1 / 2⌋ < (256 : ℤ) := by
    rw [Int.floor_lt]
    push_cast
    nlinarith
  omega

theorem srgbToLinear_zero : srgbToLinear 0 = 0 := by
  unfold srgbToLinear
  rw [if_pos (by norm_num)]
  norm_num

theorem srgbToLinear_one : srgbToLinear 1 = 1 := by
  unfold srgbToLinear
  rw [if_neg (by norm_num)]
  have hbase : ((1 : ℝ) + 0.055) / 1.055 = 1 := by norm_num
  rw [hbase, Real.one_rpow]

theorem relLuminance_black : relLuminance 0 0 0 = 0 := by
  unfold relLuminance
  have h0 : (0 : ℝ) / 255 = 0 := by norm_num
  rw [h0, srgbToLinear_zero]
  ring

theorem relLuminance_white : relLuminance 255 255 255 = 1 := by
  unfold relLuminance
  have h0 : (255 : ℝ) / 255 = 1 := by norm_num
  rw [h0, srgbToLinear_one]
  norm_num

/-- C4: every computed WCAG ratio lies in `[1, 21]`; a fully opaque pixel
against a background of its own colour yields exactly 1; opaque black against
white yields exactly 21 (in the exact-real idealisation of the floating
arithmetic). -/
theorem claim4_ratio_bounds :
    (∀ (px : Pixel) (bg : RGB), px.r ≤ 255 → px.g ≤ 255 → px.b ≤ 255 →
      px.a ≤ 255 → bg.r ≤ 255 → bg.g ≤ 255 → bg.b ≤ 255 →
      1 ≤ contrastRatioPixelVsBg px bg ∧ contrastRatioPixelVsBg px bg ≤ 21) ∧
    (∀ r g b : ℕ, contrastRatioPixelVsBg ⟨r, g, b, 255⟩ ⟨r, g, b⟩ = 1) ∧
    contrastRatioPixelVsBg ⟨0, 0, 0, 255⟩ ⟨255, 255, 255⟩ = 21 := by
  have hOpq : ∀ c bgc : ℕ, compositeChannel ((255 : ℕ) : ℝ) c bgc = (c : ℤ) := by
    intro c bgc
    unfold compositeChannel
    have h1 : ((255 : ℕ) : ℝ) / 255 = 1 := by norm_num
    have hv : ((255 : ℕ) : ℝ) / 255 * c + (1 - ((255 : ℕ) : ℝ) / 255) * bgc =
        (c : ℝ) := by
      rw [h1]
      ring
    rw [hv, round_natCast]
  refine ⟨?_, ?_, ?_⟩
  · intro px bg hr hg hb ha hbr hbg hbb
    unfold contrastRatioPixelVsBg
    have hcast : ∀ n : ℕ, n ≤ 255 → (0 : ℝ) ≤ (n : ℝ) ∧ (n : ℝ) ≤ 255 := by
      intro n hn
      constructor
      · positivity
      · exact_mod_cast hn
    obtain ⟨har0, har1⟩ := hcast px.a ha
    obtain ⟨hrr0, hrr1⟩ := hcast px.r hr
    obtain ⟨hgg0, hgg1⟩ := hcast px.g hg
    obtain ⟨hbb0, hbb1⟩ := hcast px.b hb
    obtain ⟨hwr0, hwr1⟩ := hcast bg.r hbr
    obtain ⟨hwg0, hwg1⟩ := hcast bg.g hbg
    obtain ⟨hwb0, hwb1⟩ := hcast bg.b hbb
    have hcr := And.intro
      (compositeChannel_nonneg har0 har1 hrr0 hwr0)
      (compositeChannel_le har0 har1 hrr0 hrr1 hwr0 hwr1)
    have hcg := And.intro
      (compositeChannel_nonneg har0 har1 hgg0 hwg0)
      (compositeChannel_le har0 har1 hgg0 hgg1 hwg0 hwg1)
    have hcb := And.intro
      (compositeChannel_nonneg har0 har1 hbb0 hwb0)
      (compositeChannel_le har0 har1 hbb0 hbb1 hwb0 hwb1)
    have hlp0 : (0 : ℝ) ≤ relLuminance (compositeChannel px.a px.r bg.r)
        (compositeChannel px.a px.g bg.g) (compositeChannel px.a px.b bg.b) := by
      refine relLuminance_nonneg ?_ ?_ ?_
      · exact_mod_cast hcr.1
      · exact_mod_cast hcg.1
      · exact_mod_cast hcb.1
    have hlp1 : relLuminance (compositeChannel px.a px.r bg.r)
        (compositeChannel px.a px.g bg.g) (compositeChannel px.a px.b bg.b) ≤ 1 := by
      refine relLuminance_le_one ?_ ?_ ?_
      · exact_mod_cast hcr.2
      · exact_mod_cast hcg.2
      · exact_mod_cast hcb.2
    have hlb0 : (0 : ℝ) ≤ relLuminance bg.r bg.g bg.b :=
      relLuminance_nonneg hwr0 hwg0 hwb0
    have hlb1 : relLuminance (bg.r : ℝ) bg.g bg.b ≤ 1 :=
      relLuminance_le_one hwr1 hwg1 hwb1
    set lp := relLuminance ((compositeChannel px.a px.r bg.r : ℤ) : ℝ)
      ((compositeChannel px.a px.g bg.g : ℤ) : ℝ)
      ((compositeChannel px.a px.b bg.b : ℤ) : ℝ)
    set lb := relLuminance ((bg.r : ℕ) : ℝ) ((bg.g : ℕ) : ℝ) ((bg.b : ℕ) : ℝ)
    have hmin0 : (0 : ℝ) ≤ min lp lb := le_min hlp0 hlb0
    have hmax1 : max lp lb ≤ 1 := max_le hlp1 hlb1
    have hminmax : min lp lb ≤ max lp lb := min_le_max
    have hden : (0 : ℝ) < min lp lb + 0.05 := by linarith
    constructor
    · rw [le_div_iff hden]
      linarith
    · rw [div_le_iff hden]
      nlinarith
  · intro r g b
    unfold contrastRatioPixelVsBg
    dsimp only
    rw [hOpq r r, hOpq g g, hOpq b b]
    have hL : relLuminance ((r : ℤ) : ℝ) ((g : ℤ) : ℝ) ((b : ℤ) : ℝ) =
        relLuminance ((r : ℕ) : ℝ) ((g : ℕ) : ℝ) ((b : ℕ) : ℝ) := by
      push_cast
      ring_nf
    rw [hL, max_self, min_self]
    have hnum : (0 : ℝ) <
        relLuminance ((r : ℕ) : ℝ) ((g : ℕ) : ℝ) ((b : ℕ) : ℝ) + 0.05 := by
      have := relLuminance_nonneg (r := ((r : ℕ) : ℝ)) (g := ((g : ℕ) : ℝ))
        (b := ((b : ℕ) : ℝ)) (by positivity) (by positivity) (by positivity)
      linarith
    exact div_self (ne_of_gt hnum)
  · unfold contrastRatioPixelVsBg
    dsimp only
    rw [hOpq 0 255]
    have hLp : relLuminance (((0 : ℕ) : ℤ) : ℝ) (((0 : ℕ) : ℤ) : ℝ)
        (((0 : ℕ) : ℤ) : ℝ) = 0 := by
      push_cast
      exact relLuminance_black
    have hLb : relLuminance (((255 : ℕ)) : ℝ) (((255 : ℕ)) : ℝ)
        (((255 : ℕ)) : ℝ) = 1 := by
      push_cast
      exact relLuminance_white
    rw [hLp, hLb]
    rw [max_eq_right (by norm_num : (0:ℝ) ≤ 1), min_eq_left (by norm_num : (0:ℝ) ≤ 1)]
    norm_num

/-- Witness for C4: concrete bounds at a sample pixel, the self-ratio at a
concrete grey, and the exact black-on-white value. -/
theorem claim4_witness :
    (1 ≤ contrastRatioPixelVsBg ⟨10, 20, 30, 40⟩ ⟨50, 60, 70⟩ ∧
      contrastRatioPixelVsBg ⟨10, 20, 30, 40⟩ ⟨50, 60, 70⟩ ≤ 21) ∧
    contrastRatioPixelVsBg ⟨99, 88, 77, 255⟩ ⟨99, 88, 77⟩ = 1 ∧
    contrastRatioPixelVsBg ⟨0, 0, 0, 255⟩ ⟨255, 255, 255⟩ = 21 :=
  ⟨claim4_ratio_bounds.1 ⟨10, 20, 30, 40⟩ ⟨50, 60, 70⟩ (by decide) (by decide)
      (by decide) (by decide) (by decide) (by decide) (by decide),
    claim4_ratio_bounds.2.1 99 88 77,
    claim4_ratio_bounds.2.2⟩

/-! ### Claim C8: percentile monotonicity and endpoints -/

section Percentile

variable {α : Type} [LinearOrderedField α] [FloorRing α]

theorem getD_eq_elem {s : List α} {n : ℕ} (h : n < s.length) :
    s.getD n 0 = s[n] := by
  rw [List.getD_eq_getElem?_getD, List.getElem?_eq_getElem h, Option.getD_some]

theorem sorted_getD_mono {s : List α} (hs : s.Sorted (· ≤ ·)) {i j : ℕ}
    (hij : i ≤ j) (hj : j < s.length) : s.getD i 0 ≤ s.getD j 0 := by
  rcases Nat.lt_or_ge i j with hlt | hge
  · have hi : i < s.length := lt_trans hlt hj
    rw [getD_eq_elem hi, getD_eq_elem hj]
    have := List.pairwise_iff_get.1 hs ⟨i, hi⟩ ⟨j, hj⟩ hlt
    simpa using this
  · have hij' : i = j := le_antisymm hij hge
    rw [hij']

/-- The interpolation value of the percentile computation at fractional index
`t` (a proof-side abbreviation of the source's `sorted[lo]*(1-w) +
sorted[hi]*w`). -/
def interpAt (s : List α) (t : α) : α :=
  s.getD (⌊t⌋).toNat 0 * (1 - (t - ⌊t⌋)) +
    s.getD ((⌊t⌋).toNat + 1) 0 * (t - ⌊t⌋)

theorem percentile_eq_interpAt {s : List α} (hlen : s.length ≠ 0) {p : α}
    (hp0 : 0 ≤ p) :
    percentile s p = some (interpAt s (((s.length : α) - 1) * p)) := by
  have hn1 : (1 : α) ≤ (s.length : α) := by
    exact_mod_cast Nat.one_le_iff_ne_zero.2 hlen
  set t : α := ((s.length : α) - 1) * p with ht
  have ht0 : 0 ≤ t := mul_nonneg (by linarith) hp0
  unfold percentile
  rw [if_neg hlen]
  dsimp only
  by_cases hfl : ⌊t⌋ = ⌈t⌉
  · rw [if_pos hfl]
    have hteq : (⌊t⌋ : α) = t :=
      le_antisymm (Int.floor_le t) (hfl ▸ Int.le_ceil t)
    unfold interpAt
    rw [hteq]
    have hw : t - t = 0 := sub_self t
    rw [hw]
    ring_nf
  · rw [if_neg hfl]
    have hceil : ⌈t⌉ = ⌊t⌋ + 1 := by
      have h1 : ⌈t⌉ ≤ ⌊t⌋ + 1 := Int.ceil_le_floor_add_one t
      have h2 : ⌊t⌋ ≤ ⌈t⌉ := Int.floor_le_ceil t
      omega
    have htoNat : (⌊t⌋ + 1).toNat = (⌊t⌋).toNat + 1 := by
      have : 0 ≤ ⌊t⌋ := Int.floor_nonneg.2 ht0
      omega
    rw [hceil, htoNat]
    rfl

theorem interpAt_mono {s : List α} (hs : s.Sorted (· ≤ ·))
    (hlen : s.length ≠ 0) {t t' : α} (ht0 : 0 ≤ t) (htt : t ≤ t')
    (ht1 : t' ≤ (s.length : α) - 1) :
    interpAt s t ≤ interpAt s t' := by
  set N : ℕ := s.length - 1 with hN
  have hNlen : N + 1 = s.length := by omega
  have hNc : ((N : ℕ) : α) = (s.length : α) - 1 := by
    rw [hN]
    push_cast [Nat.cast_sub (Nat.one_le_iff_ne_zero.2 hlen)]
    ring
  have hlo0 : 0 ≤ ⌊t⌋ := Int.floor_nonneg.2 ht0
  have hloZ : 0 ≤ ⌊t'⌋ := Int.floor_nonneg.2 (le_trans ht0 htt)
  have hlole : ⌊t⌋ ≤ ⌊t'⌋ := Int.floor_mono htt
  have hloNone : ⌊t'⌋ ≤ (N : ℤ) := by
    have h1 : ⌊t'⌋ ≤ ⌊((N : ℕ) : α)⌋ := Int.floor_mono (by rw [hNc]; exact ht1)
    rwa [Int.floor_natCast] at h1
  have hfr0 : 0 ≤ t - ⌊t⌋ := by
    have := Int.floor_le t
    linarith
  have hfr1 : t - ⌊t⌋ < 1 := by
    have := Int.lt_floor_add_one t
    push_cast at this
    linarith
  have hfrZtwo : 0 ≤ t' - ⌊t'⌋ := by
    have := Int.floor_le t'
    linarith
  have hfrOtwo : t' - ⌊t'⌋ < 1 := by
    have := Int.lt_floor_add_one t'
    push_cast at this
    linarith
  rcases eq_or_lt_of_le hlole with heq | hlt
  · -- same floor cell
    by_cases hcell : (⌊t⌋).toNat < N
    · have hBlt : (⌊t⌋).toNat + 1 < s.length := by omega
      have hAB : s.getD (⌊t⌋).toNat 0 ≤ s.getD ((⌊t⌋).toNat + 1) 0 :=
        sorted_getD_mono hs (Nat.le_succ _) hBlt
      unfold interpAt
      rw [← heq]
      nlinarith [mul_nonneg (sub_nonneg.2 hAB) (sub_nonneg.2 htt)]
    · -- the cell is the last index: t = t' = N
      have hloN : ⌊t⌋ = (N : ℤ) := by omega
      have htN : t = ((N : ℕ) : α) := by
        refine le_antisymm (by rw [hNc]; linarith) ?_
        have : ((N : ℤ) : α) ≤ t := hloN ▸ Int.floor_le t
        exact_mod_cast this
      have htN' : t' = ((N : ℕ) : α) := by
        refine le_antisymm (by rw [hNc]; exact ht1) ?_
        rw [← htN]
        exact htt
      rw [htN, ← htN']
  · -- strictly larger floor cell
    have hlt1 : ⌊t⌋ + 1 ≤ ⌊t'⌋ := hlt
    have hBidx : (⌊t⌋).toNat + 1 ≤ (⌊t'⌋).toNat := by omega
    have hloLen : (⌊t'⌋).toNat < s.length := by omega
    have hBlt : (⌊t⌋).toNat + 1 < s.length := by omega
    have hAB : s.getD (⌊t⌋).toNat 0 ≤ s.getD ((⌊t⌋).toNat + 1) 0 :=
      sorted_getD_mono hs (Nat.le_succ _) hBlt
    have step1 : interpAt s t ≤ s.getD ((⌊t⌋).toNat + 1) 0 := by
      unfold interpAt
      nlinarith [mul_nonneg (sub_nonneg.2 hAB) hfr0]
    have step2 : s.getD ((⌊t⌋).toNat + 1) 0 ≤ s.getD ((⌊t'⌋).toNat) 0 :=
      sorted_getD_mono hs hBidx hloLen
    have step3 : s.getD ((⌊t'⌋).toNat) 0 ≤ interpAt s t' := by
      by_cases hcellTwo : (⌊t'⌋).toNat < N
      · have hBtwolt : (⌊t'⌋).toNat + 1 < s.length := by omega
        have hABtwo : s.getD (⌊t'⌋).toNat 0 ≤ s.getD ((⌊t'⌋).toNat + 1) 0 :=
          sorted_getD_mono hs (Nat.le_succ _) hBtwolt
        unfold interpAt
        nlinarith [mul_nonneg (sub_nonneg.2 hABtwo) hfrZtwo]
      · have hloNtwo : ⌊t'⌋ = (N : ℤ) := by omega
        have htN2 : t' = ((N : ℕ) : α) := by
          refine le_antisymm (by rw [hNc]; exact ht1) ?_
          have : ((N : ℤ) : α) ≤ t' := hloNtwo ▸ Int.floor_le t'
          exact_mod_cast this
        have hw0 : t' - ⌊t'⌋ = 0 := by
          rw [hloNtwo, htN2]
          push_cast
          ring
        unfold interpAt
        rw [hw0]
        ring_nf
        exact le_refl _
    exact le_trans step1 (le_trans step2 step3)

theorem foldl_min_of_le {t : List α} {a : α} (h : ∀ x ∈ t, a ≤ x) :
    t.foldl min a = a := by
  induction t generalizing a with
  | nil => rfl
  | cons b t ih =>
      rw [List.foldl_cons, min_eq_left (h b (List.mem_cons_self b t))]
      exact ih fun x hx => h x (List.mem_cons_of_mem b hx)

theorem sorted_min?_eq_head? {s : List α} (hs : s.Sorted (· ≤ ·)) :
    s.min? = s.head? := by
  cases s with
  | nil => rfl
  | cons a t =>
      show some (t.foldl min a) = some a
      rw [foldl_min_of_le (List.rel_of_sorted_cons hs)]

theorem sorted_foldl_max {a : α} {t : List α}
    (hs : (a :: t).Sorted (· ≤ ·)) :
    t.foldl max a = (a :: t).getLast (List.cons_ne_nil a t) := by
  induction t generalizing a with
  | nil => rfl
  | cons b t ih =>
      have hab : a ≤ b := List.rel_of_sorted_cons hs b (List.mem_cons_self b t)
      rw [List.foldl_cons, max_eq_right hab,
        List.getLast_cons (List.cons_ne_nil b t)]
      exact ih (List.sorted_cons.1 hs).2

theorem sorted_max?_eq_getLast? {s : List α} (hs : s.Sorted (· ≤ ·)) :
    s.max? = s.getLast? := by
  cases s with
  | nil => rfl
  | cons a t =>
      show some (t.foldl max a) = _
      rw [sorted_foldl_max hs,
        List.getLast?_eq_getLast (a :: t) (List.cons_ne_nil a t)]

/-- C8: for a nonempty ascending-sorted sequence, the interpolated percentile
is monotone in `p` over `[0, 1]`, equals the minimum at `p = 0`, and equals
the maximum at `p = 1`. -/
theorem claim8_percentile_monotone (s : List α) (hs : s.Sorted (· ≤ ·))
    (hne : s ≠ []) (p q : α) (hp0 : 0 ≤ p) (hpq : p ≤ q) (hq1 : q ≤ 1) :
    (percentile s p).getD 0 ≤ (percentile s q).getD 0 ∧
    percentile s 0 = s.min? ∧ percentile s 1 = s.max? := by
  have hlen : s.length ≠ 0 := fun hc => hne (List.length_eq_zero.1 hc)
  have hn1 : (1 : α) ≤ (s.length : α) := by
    exact_mod_cast Nat.one_le_iff_ne_zero.2 hlen
  refine ⟨?_, ?_, ?_⟩
  · rw [percentile_eq_interpAt hlen hp0,
      percentile_eq_interpAt hlen (le_trans hp0 hpq), Option.getD_some,
      Option.getD_some]
    refine interpAt_mono hs hlen ?_ ?_ ?_
    · exact mul_nonneg (by linarith) hp0
    · exact mul_le_mul_of_nonneg_left hpq (by linarith)
    · calc ((s.length : α) - 1) * q ≤ ((s.length : α) - 1) * 1 :=
          mul_le_mul_of_nonneg_left hq1 (by linarith)
        _ = (s.length : α) - 1 := mul_one _
  · rw [percentile_eq_interpAt hlen le_rfl, sorted_min?_eq_head? hs]
    have ht : ((s.length : α) - 1) * 0 = 0 := mul_zero _
    rw [ht]
    unfold interpAt
    rw [Int.floor_zero]
    cases s with
    | nil => exact absurd rfl hne
    | cons a t =>
        show some (a * (1 - ((0 : α) - ((0 : ℤ) : α))) +
          t.getD 0 0 * ((0 : α) - ((0 : ℤ) : α))) = some a
        push_cast
        ring_nf
  · rw [percentile_eq_interpAt hlen (by norm_num : (0:α) ≤ 1),
      sorted_max?_eq_getLast? hs]
    have hNc : ((s.length : α) - 1) * 1 = ((s.length - 1 : ℕ) : α) := by
      rw [mul_one]
      push_cast [Nat.cast_sub (Nat.one_le_iff_ne_zero.2 hlen)]
      ring
    rw [hNc]
    unfold interpAt
    rw [Int.floor_natCast]
    have hw : ((s.length - 1 : ℕ) : α) - (((s.length - 1 : ℕ) : ℤ) : α) = 0 := by
      push_cast
      ring
    rw [hw]
    have hidx : (((s.length - 1 : ℕ) : ℤ)).toNat = s.length - 1 := by omega
    rw [hidx]
    have hlast : s.getD (s.length - 1) 0 = (s.getLast?).getD 0 := by
      rw [List.getD_eq_getElem?_getD, List.getLast?_eq_getElem?]
    obtain ⟨x, hx⟩ : ∃ x, s.getLast? = some x := by
      cases s with
      | nil => exact absurd rfl hne
      | cons a t => exact ⟨_, List.getLast?_eq_getLast (a :: t) (List.cons_ne_nil a t)⟩
    rw [hx] at hlast
    rw [Option.getD_some] at hlast
    rw [hlast, hx]
    congr 1
    ring

end Percentile

/-- Witness for C8: the sorted rational list `[1, 2, 4]` at `p = 0 ≤ 1/2`. -/
theorem claim8_witness :
    (percentile [(1 : ℚ), 2, 4] 0).getD 0 ≤
      (percentile [(1 : ℚ), 2, 4] (1 / 2)).getD 0 ∧
    percentile [(1 : ℚ), 2, 4] 0 = [(1 : ℚ), 2, 4].min? ∧
    percentile [(1 : ℚ), 2, 4] 1 = [(1 : ℚ), 2, 4].max? :=
  claim8_percentile_monotone [(1 : ℚ), 2, 4] (by decide) (by decide) 0 (1 / 2)
    (by norm_num) (by norm_num) (by norm_num)

/-! ### Claim C5: scenario B (mid-gray square on white) -/

/-- The contrast ratio of the opaque mid-gray `(130,130,130)` pixel against
solid white. -/
noncomputable def grayRatio : ℝ :=
  contrastRatioPixelVsBg ⟨130, 130, 130, 255⟩ ⟨255, 255, 255⟩

theorem compositeChannel_opaque (c bgc : ℕ) :
    compositeChannel ((255 : ℕ) : ℝ) c bgc = (c : ℤ) := by
  unfold compositeChannel
  have h1 : ((255 : ℕ) : ℝ) / 255 = 1 := by norm_num
  have hv : ((255 : ℕ) : ℝ) / 255 * c + (1 - ((255 : ℕ) : ℝ) / 255) * bgc =
      (c : ℝ) := by
    rw [h1]
    ring
  rw [hv, round_natCast]

theorem srgbToLinear_gray_bounds :
    0.223 < srgbToLinear ((130 : ℝ) / 255) ∧
      srgbToLinear ((130 : ℝ) / 255) < 0.2233 := by
  unfold srgbToLinear
  rw [if_neg (by norm_num)]
  have hbase : ((130 : ℝ) / 255 + 0.055) / 1.055 = 5761 / 10761 := by norm_num
  rw [hbase]
  have hx0 : (0 : ℝ) ≤ 5761 / 10761 := by norm_num
  have hexp : (2.4 : ℝ) = (12 : ℝ) / 5 := by norm_num
  have hpow5 : (((5761 : ℝ) / 10761) ^ ((12 : ℝ) / 5)) ^ (5 : ℕ) =
      ((5761 : ℝ) / 10761) ^ (12 : ℕ) := by
    rw [← Real.rpow_natCast (((5761 : ℝ) / 10761) ^ ((12 : ℝ) / 5)) 5,
      ← Real.rpow_mul hx0, ← Real.rpow_natCast ((5761 : ℝ) / 10761) 12]
    norm_num
  rw [hexp]
  constructor
  · refine lt_of_pow_lt_pow_left 5 (Real.rpow_nonneg hx0 _) ?_
    rw [hpow5]
    norm_num
  · refine lt_of_pow_lt_pow_left 5 (by norm_num) ?_
    rw [hpow5]
    norm_num

theorem grayRatio_bounds : 3 < grayRatio ∧ 3.8 < grayRatio ∧ grayRatio < 3.9 := by
  obtain ⟨hg1, hg2⟩ := srgbToLinear_gray_bounds
  have hlum : relLuminance ((130 : ℝ)) ((130 : ℝ)) ((130 : ℝ)) =
      srgbToLinear ((130 : ℝ) / 255) := by
    unfold relLuminance
    ring
  unfold grayRatio contrastRatioPixelVsBg
  dsimp only
  have hcc : ∀ bgc : ℕ, compositeChannel ((255 : ℕ) : ℝ) ((130 : ℕ) : ℝ) bgc =
      ((130 : ℕ) : ℤ) := fun bgc => compositeChannel_opaque 130 bgc
  rw [hcc 255]
  have hLp : relLuminance ((((130 : ℕ) : ℤ)) : ℝ) ((((130 : ℕ) : ℤ)) : ℝ)
      ((((130 : ℕ) : ℤ)) : ℝ) = srgbToLinear ((130 : ℝ) / 255) := by
    rw [← hlum]
    norm_num
  have hLb : relLuminance (((255 : ℕ)) : ℝ) (((255 : ℕ)) : ℝ)
      (((255 : ℕ)) : ℝ) = 1 := by
    push_cast
    exact relLuminance_white
  rw [hLp, hLb]
  set L := srgbToLinear ((130 : ℝ) / 255) with hL
  have hmax : max L 1 = 1 := max_eq_right (by linarith)
  have hmin : min L 1 = L := min_eq_left (by linarith)
  rw [hmax, hmin]
  have hden : (0 : ℝ) < L + 0.05 := by linarith
  refine ⟨?_, ?_, ?_⟩
  · rw [lt_div_iff hden]
    nlinarith
  · rw [lt_div_iff hden]
    nlinarith
  · rw [div_lt_iff hden]
    nlinarith

theorem sorted_replicate (n : ℕ) (a : ℝ) :
    (List.replicate n a).Sorted (· ≤ ·) := by
  induction n with
  | zero => exact List.sorted_nil
  | succ n ih =>
      rw [List.replicate_succ, List.sorted_cons]
      exact ⟨fun b hb => le_of_eq (List.eq_of_mem_replicate hb).symm, ih⟩

theorem filter_replicate_false {f : ℝ → Bool} {a : ℝ} (hf : f a = false)
    (n : ℕ) : (List.replicate n a).filter f = [] := by
  induction n with
  | zero => rfl
  | succ n ih =>
      rw [List.replicate_succ, List.filter_cons, hf]
      simpa using ih

set_option maxRecDepth 40000 in
theorem cliRatioCoords_imgGray :
    cliRatioCoords imgGray cfgGray =
      [(3, 3), (4, 3), (5, 3), (6, 3), (3, 4), (4, 4), (5, 4), (6, 4),
        (3, 5), (4, 5), (5, 5), (6, 5), (3, 6), (4, 6), (5, 6), (6, 6)] := by
  decide

theorem cliRatios_imgGray :
    cliRatios imgGray cfgGray ⟨255, 255, 255⟩ = List.replicate 16 grayRatio := by
  unfold cliRatios
  rw [cliRatioCoords_imgGray]
  have hmap : List.map
      (fun p : Pos => contrastRatioPixelVsBg (imgGray.px p.1 p.2) ⟨255, 255, 255⟩)
      [(3, 3), (4, 3), (5, 3), (6, 3), (3, 4), (4, 4), (5, 4), (6, 4),
        (3, 5), (4, 5), (5, 5), (6, 5), (3, 6), (4, 6), (5, 6), (6, 6)] =
      List.map (fun _ : Pos => grayRatio)
      [(3, 3), (4, 3), (5, 3), (6, 3), (3, 4), (4, 4), (5, 4), (6, 4),
        (3, 5), (4, 5), (5, 5), (6, 5), (3, 6), (4, 6), (5, 6), (6, 6)] := by
    refine List.map_congr_left ?_
    intro p hp
    fin_cases hp <;> rfl
  rw [hmap, List.map_const']
  rfl

theorem getD_replicate {a : ℝ} {n i : ℕ} (h : i < n) :
    (List.replicate n a).getD i 0 = a := by
  induction n generalizing i with
  | zero => omega
  | succ n ih =>
      cases i with
      | zero =>
          rw [List.replicate_succ]
          rfl
      | succ i =>
          rw [List.replicate_succ, List.getD_cons_succ]
          exact ih (by omega)

theorem percentile_replicate16 (r p : ℝ) (hp0 : 0 ≤ p) (hp1 : p ≤ 1) :
    percentile (List.replicate 16 r) p = some r := by
  have hlen : (List.replicate 16 r).length ≠ 0 := by simp
  rw [percentile_eq_interpAt hlen hp0]
  congr 1
  unfold interpAt
  have hlen16 : ((List.replicate 16 r).length : ℝ) = 16 := by simp
  rw [hlen16]
  set t : ℝ := (16 - 1) * p with ht
  have ht0 : 0 ≤ t := by nlinarith
  have ht15 : t ≤ 15 := by nlinarith
  have hflr0 : 0 ≤ ⌊t⌋ := Int.floor_nonneg.2 ht0
  have hflr15 : ⌊t⌋ ≤ 15 := by
    have h1 : ⌊t⌋ ≤ ⌊(15 : ℝ)⌋ := Int.floor_mono ht15
    simpa using h1
  have hg0 : (List.replicate 16 r).getD (⌊t⌋).toNat 0 = r :=
    getD_replicate (by omega)
  by_cases hb : (⌊t⌋).toNat + 1 < 16
  · rw [hg0, getD_replicate hb]
    ring
  · have h15 : ⌊t⌋ = 15 := by omega
    have hge : (15 : ℝ) ≤ t := by
      have hfl := Int.floor_le t
      rw [h15] at hfl
      exact_mod_cast hfl
    have hteq : t = 15 := le_antisymm ht15 hge
    rw [hg0, h15, hteq]
    push_cast
    ring

set_option maxRecDepth 100000 in
theorem cliCollect_imgGray_stats :
    (cliCollect imgGray cfgGray ⟨255, 255, 255⟩).stats.count = 16 ∧
    (cliCollect imgGray cfgGray ⟨255, 255, 255⟩).stats.pX = some grayRatio ∧
    (cliCollect imgGray cfgGray ⟨255, 255, 255⟩).stats.pctBelow = 0 ∧
    (cliCollect imgGray cfgGray ⟨255, 255, 255⟩).pass = true := by
  have h3r : (3 : ℝ) < grayRatio := grayRatio_bounds.1
  have hstats : (cliCollect imgGray cfgGray ⟨255, 255, 255⟩).stats =
      statsForRatios (cliRatios imgGray cfgGray ⟨255, 255, 255⟩)
        cfgGray.p cfgGray.threshold := rfl
  have hp : cfgGray.p = (0.05 : ℝ) := rfl
  have hth : cfgGray.threshold = (3 : ℝ) := rfl
  have hlen : (List.replicate 16 grayRatio).length ≠ 0 := by simp
  have hsort : sortRatios (List.replicate 16 grayRatio) =
      List.replicate 16 grayRatio :=
    List.Sorted.insertionSort_eq (sorted_replicate 16 grayRatio)
  have hfilt : (List.replicate 16 grayRatio).filter
      (fun x => decide (x < (3 : ℝ))) = [] :=
    filter_replicate_false (decide_eq_false (not_lt.2 (le_of_lt h3r))) 16
  have hstats2 : statsForRatios (List.replicate 16 grayRatio) 0.05 3 =
      ⟨16, some grayRatio, some grayRatio, some grayRatio, 0⟩ := by
    unfold statsForRatios
    rw [if_neg hlen]
    dsimp only
    rw [hsort, hfilt]
    have h1 : percentile (List.replicate 16 grayRatio) 0.05 = some grayRatio :=
      percentile_replicate16 grayRatio 0.05 (by norm_num) (by norm_num)
    have h2 : percentile (List.replicate 16 grayRatio) 0.5 = some grayRatio :=
      percentile_replicate16 grayRatio 0.5 (by norm_num) (by norm_num)
    rw [h1, h2]
    have hhead : (List.replicate 16 grayRatio).head? = some grayRatio := rfl
    rw [hhead]
    norm_num
  have hfin : (cliCollect imgGray cfgGray ⟨255, 255, 255⟩).stats =
      ⟨16, some grayRatio, some grayRatio, some grayRatio, 0⟩ := by
    rw [hstats, cliRatios_imgGray, hp, hth, hstats2]
  refine ⟨by rw [hfin], by rw [hfin], by rw [hfin], ?_⟩
  have hpass : (cliCollect imgGray cfgGray ⟨255, 255, 255⟩).pass =
      passByStats (cliCollect imgGray cfgGray ⟨255, 255, 255⟩).stats
        cfgGray.threshold cfgGray.maxPctBelow := rfl
  rw [hpass, hfin, hth]
  unfold passByStats
  dsimp only
  rw [if_neg (by norm_num)]
  have hd1 : decide ((3 : ℝ) ≤ grayRatio) = true :=
    decide_eq_true (le_of_lt h3r)
  have hd2 : decide ((0 : ℝ) ≤ cfgGray.maxPctBelow) = true :=
    decide_eq_true (by norm_num [cfgGray])
  rw [hd1, hd2]
  rfl

/-- C5 (amended): in scenario B every sampled pixel's contrast ratio against
white is ≈3.84 — strictly between 3.8 and 3.9, hence above the threshold 3 —
`percentBelowThreshold` is 0, and the per-background pass verdict is true. -/
theorem claim5_scenario_b :
    (∀ x ∈ cliRatios imgGray cfgGray ⟨255, 255, 255⟩,
      3 < x ∧ 3.8 < x ∧ x < 3.9) ∧
    (cliAnalyze imgGray cfgGray).reports =
      [cliCollect imgGray cfgGray ⟨255, 255, 255⟩] ∧
    (cliCollect imgGray cfgGray ⟨255, 255, 255⟩).stats.pctBelow = 0 ∧
    (cliCollect imgGray cfgGray ⟨255, 255, 255⟩).pass = true := by
  refine ⟨?_, rfl, cliCollect_imgGray_stats.2.2.1, cliCollect_imgGray_stats.2.2.2⟩
  intro x hx
  rw [cliRatios_imgGray] at hx
  rw [List.eq_of_mem_replicate hx]
  exact grayRatio_bounds

/-- Witness for C5: the concrete sampled ratio clears all three bounds. -/
theorem claim5_witness : 3 < grayRatio ∧ 3.8 < grayRatio ∧ grayRatio < 3.9 :=
  claim5_scenario_b.1 grayRatio
    (by rw [cliRatios_imgGray]; exact List.mem_replicate.2 ⟨by norm_num, rfl⟩)

/-- Counterexample to C5 as stated: the per-background verdict of scenario B
is `true`, not `false`, and its below-threshold percentage is 0, not 100. -/
theorem claim5_counterexample :
    ((cliAnalyze imgGray cfgGray).reports.map fun r => r.pass) = [true] ∧
    ((cliAnalyze imgGray cfgGray).reports.map fun r => r.stats.pctBelow) =
      [(0 : ℝ)] := by
  have hrep : (cliAnalyze imgGray cfgGray).reports =
      [cliCollect imgGray cfgGray ⟨255, 255, 255⟩] := rfl
  rw [hrep, List.map_cons, List.map_nil, List.map_cons, List.map_nil,
    cliCollect_imgGray_stats.2.2.2]
  exact ⟨rfl, by rw [cliCollect_imgGray_stats.2.2.1]⟩

/-! ### Claim C9: determinism / extensionality of the analysis -/

theorem borderBandMask_subset {w h e : ℕ} : borderBandMask w h e ⊆ gridF w h := by
  unfold borderBandMask
  exact Finset.filter_subset _ _

theorem bandMask_subset_grid {w h r : ℕ} {bg : Finset Pos} :
    bandMask w h r bg ⊆ gridF w h := by
  unfold bandMask
  exact Finset.filter_subset _ _

theorem webBandMask_subset_grid (img : Img) (cfg : WebCfg) :
    webBandMask img cfg ⊆ gridF img.w img.h := by
  unfold webBandMask
  split
  · exact borderBandMask_subset
  · exact bandMask_subset_grid

theorem webSampleMask_subset_grid (img : Img) (cfg : WebCfg) :
    webSampleMask img cfg ⊆ gridF img.w img.h := by
  unfold webSampleMask
  cases cfg.sampleMode with
  | band => exact webBandMask_subset_grid img cfg
  | all => exact Finset.filter_subset _ _
  | stroke =>
      exact fun p hp =>
        webBandMask_subset_grid img cfg (Finset.mem_filter.1 hp).1

theorem foldl_congr_mem {β : Type} {l : List Pos} {f g : β → Pos → β} {i : β}
    (h : ∀ b, ∀ p ∈ l, f b p = g b p) : l.foldl f i = l.foldl g i := by
  induction l generalizing i with
  | nil => rfl
  | cons a t ih =>
      rw [List.foldl_cons, List.foldl_cons, h i a (List.mem_cons_self a t)]
      exact ih fun b p hp => h b p (List.mem_cons_of_mem a hp)

section Determinism

variable {img₁ img₂ : Img}

theorem webPredB_congr (cfg : WebCfg)
    (hpx : ∀ x y, x < img₁.w → y < img₁.h → img₁.px x y = img₂.px x y) :
    ∀ p : Pos, ValidPos img₁.w img₁.h p →
      webPredB img₁ cfg p = webPredB img₂ cfg p := by
  intro p hv
  unfold webPredB
  rw [hpx p.1 p.2 hv.1 hv.2]

theorem webTier1_congr (cfg : WebCfg) (hw : img₁.w = img₂.w)
    (hh : img₁.h = img₂.h)
    (hpx : ∀ x y, x < img₁.w → y < img₁.h → img₁.px x y = img₂.px x y) :
    webTier1 img₁ cfg = webTier1 img₂ cfg := by
  unfold webTier1
  rw [← hw, ← hh]
  exact floodFill_congr (webPredB_congr cfg hpx)

theorem webBgMask_congr (cfg : WebCfg) (hw : img₁.w = img₂.w)
    (hh : img₁.h = img₂.h)
    (hpx : ∀ x y, x < img₁.w → y < img₁.h → img₁.px x y = img₂.px x y) :
    webBgMask img₁ cfg = webBgMask img₂ cfg := by
  unfold webBgMask
  rw [webTier1_congr cfg hw hh hpx, ← hw, ← hh]
  by_cases hc : webTier1 img₂ cfg = ∅
  · rw [if_pos hc, if_pos hc]
    refine Finset.filter_congr ?_
    intro p hp
    rw [webPredB_congr cfg hpx p (mem_gridF.1 hp)]
  · rw [if_neg hc, if_neg hc]

theorem webBandMask_congr (cfg : WebCfg) (hw : img₁.w = img₂.w)
    (hh : img₁.h = img₂.h)
    (hpx : ∀ x y, x < img₁.w → y < img₁.h → img₁.px x y = img₂.px x y) :
    webBandMask img₁ cfg = webBandMask img₂ cfg := by
  unfold webBandMask
  rw [webBgMask_congr cfg hw hh hpx, ← hw, ← hh]

theorem webSampleMask_congr (cfg : WebCfg) (hw : img₁.w = img₂.w)
    (hh : img₁.h = img₂.h)
    (hpx : ∀ x y, x < img₁.w → y < img₁.h → img₁.px x y = img₂.px x y) :
    webSampleMask img₁ cfg = webSampleMask img₂ cfg := by
  unfold webSampleMask
  cases hmode : cfg.sampleMode with
  | band => exact webBandMask_congr cfg hw hh hpx
  | all =>
      rw [webBgMask_congr cfg hw hh hpx, ← hw, ← hh]
  | stroke =>
      rw [webBandMask_congr cfg hw hh hpx]
      refine Finset.filter_congr ?_
      intro p hp
      have hv : ValidPos img₁.w img₁.h p := by
        rw [hw, hh]
        exact mem_gridF.1 (webBandMask_subset_grid img₂ cfg hp)
      rw [hpx p.1 p.2 hv.1 hv.2]

theorem webRatioCoords_congr (cfg : WebCfg) (hw : img₁.w = img₂.w)
    (hh : img₁.h = img₂.h)
    (hpx : ∀ x y, x < img₁.w → y < img₁.h → img₁.px x y = img₂.px x y) :
    webRatioCoords img₁ cfg = webRatioCoords img₂ cfg := by
  unfold webRatioCoords
  rw [webSampleMask_congr cfg hw hh hpx, ← hw, ← hh]
  refine List.filter_congr ?_
  intro p hp
  have hv : ValidPos img₁.w img₁.h p := mem_rowMajor.1 hp
  rw [hpx p.1 p.2 hv.1 hv.2]

theorem webRatios_congr (cfg : WebCfg) (hw : img₁.w = img₂.w)
    (hh : img₁.h = img₂.h)
    (hpx : ∀ x y, x < img₁.w → y < img₁.h → img₁.px x y = img₂.px x y) :
    webRatios img₁ cfg = webRatios img₂ cfg := by
  unfold webRatios
  rw [webRatioCoords_congr cfg hw hh hpx]
  refine List.map_congr_left ?_
  intro p hp
  have hp' : p ∈ rowMajor img₂.w img₂.h := List.mem_of_mem_filter hp
  have hv : ValidPos img₁.w img₁.h p := by
    rw [hw, hh]
    exact mem_rowMajor.1 hp'
  rw [hpx p.1 p.2 hv.1 hv.2]

theorem webStats_congr (cfg : WebCfg) (hw : img₁.w = img₂.w)
    (hh : img₁.h = img₂.h)
    (hpx : ∀ x y, x < img₁.w → y < img₁.h → img₁.px x y = img₂.px x y) :
    webStats img₁ cfg = webStats img₂ cfg := by
  unfold webStats
  rw [webRatios_congr cfg hw hh hpx]

theorem webPass_congr (cfg : WebCfg) (hw : img₁.w = img₂.w)
    (hh : img₁.h = img₂.h)
    (hpx : ∀ x y, x < img₁.w → y < img₁.h → img₁.px x y = img₂.px x y) :
    webPass img₁ cfg = webPass img₂ cfg := by
  unfold webPass
  rw [webStats_congr cfg hw hh hpx]

theorem webFailingMask_congr (cfg : WebCfg) (hw : img₁.w = img₂.w)
    (hh : img₁.h = img₂.h)
    (hpx : ∀ x y, x < img₁.w → y < img₁.h → img₁.px x y = img₂.px x y) :
    webFailingMask img₁ cfg = webFailingMask img₂ cfg := by
  unfold webFailingMask
  rw [webSampleMask_congr cfg hw hh hpx]
  refine Finset.filter_congr ?_
  intro p hp
  have hv : ValidPos img₁.w img₁.h p := by
    rw [hw, hh]
    exact mem_gridF.1 (webSampleMask_subset_grid img₂ cfg hp)
  rw [hpx p.1 p.2 hv.1 hv.2]

theorem cliPredB_congr (cfg : CliCfg)
    (hpx : ∀ x y, x < img₁.w → y < img₁.h → img₁.px x y = img₂.px x y) :
    ∀ p : Pos, ValidPos img₁.w img₁.h p →
      cliPredB img₁ cfg p = cliPredB img₂ cfg p := by
  intro p hv
  unfold cliPredB
  rw [hpx p.1 p.2 hv.1 hv.2]

theorem cliBgMask_congr (cfg : CliCfg) (hw : img₁.w = img₂.w)
    (hh : img₁.h = img₂.h)
    (hpx : ∀ x y, x < img₁.w → y < img₁.h → img₁.px x y = img₂.px x y) :
    cliBgMask img₁ cfg = cliBgMask img₂ cfg := by
  unfold cliBgMask
  rw [← hw, ← hh]
  exact floodFill_congr (cliPredB_congr cfg hpx)

theorem cliBandMask_congr (cfg : CliCfg) (hw : img₁.w = img₂.w)
    (hh : img₁.h = img₂.h)
    (hpx : ∀ x y, x < img₁.w → y < img₁.h → img₁.px x y = img₂.px x y) :
    cliBandMask img₁ cfg = cliBandMask img₂ cfg := by
  unfold cliBandMask
  rw [cliBgMask_congr cfg hw hh hpx, ← hw, ← hh]

theorem cliRatioCoords_congr (cfg : CliCfg) (hw : img₁.w = img₂.w)
    (hh : img₁.h = img₂.h)
    (hpx : ∀ x y, x < img₁.w → y < img₁.h → img₁.px x y = img₂.px x y) :
    cliRatioCoords img₁ cfg = cliRatioCoords img₂ cfg := by
  unfold cliRatioCoords
  rw [cliBandMask_congr cfg hw hh hpx, ← hw, ← hh]

theorem cliRatios_congr (cfg : CliCfg) (bg : RGB) (hw : img₁.w = img₂.w)
    (hh : img₁.h = img₂.h)
    (hpx : ∀ x y, x < img₁.w → y < img₁.h → img₁.px x y = img₂.px x y) :
    cliRatios img₁ cfg bg = cliRatios img₂ cfg bg := by
  unfold cliRatios
  rw [cliRatioCoords_congr cfg hw hh hpx]
  refine List.map_congr_left ?_
  intro p hp
  have hp' : p ∈ rowMajor img₂.w img₂.h := List.mem_of_mem_filter hp
  have hv : ValidPos img₁.w img₁.h p := by
    rw [hw, hh]
    exact mem_rowMajor.1 hp'
  rw [hpx p.1 p.2 hv.1 hv.2]

theorem cliWorst_congr (cfg : CliCfg) (bg : RGB) (hw : img₁.w = img₂.w)
    (hh : img₁.h = img₂.h)
    (hpx : ∀ x y, x < img₁.w → y < img₁.h → img₁.px x y = img₂.px x y) :
    cliWorst img₁ cfg bg = cliWorst img₂ cfg bg := by
  unfold cliWorst
  rw [cliRatioCoords_congr cfg hw hh hpx]
  refine foldl_congr_mem ?_
  intro b p hp
  have hp' : p ∈ rowMajor img₂.w img₂.h := List.mem_of_mem_filter hp
  have hv : ValidPos img₁.w img₁.h p := by
    rw [hw, hh]
    exact mem_rowMajor.1 hp'
  rw [hpx p.1 p.2 hv.1 hv.2]

theorem cliCollect_congr (cfg : CliCfg) (bg : RGB) (hw : img₁.w = img₂.w)
    (hh : img₁.h = img₂.h)
    (hpx : ∀ x y, x < img₁.w → y < img₁.h → img₁.px x y = img₂.px x y) :
    cliCollect img₁ cfg bg = cliCollect img₂ cfg bg := by
  unfold cliCollect
  rw [cliRatios_congr cfg bg hw hh hpx, cliWorst_congr cfg bg hw hh hpx]

/-- C9: the analysis is a pure function of the pixel bytes and the
configuration — two buffers with identical pixel values over the grid yield
identical results on both paths (masks, statistics, worst sample, and
verdicts). -/
theorem claim9_deterministic (img₁ img₂ : Img) (wcfg : WebCfg) (ccfg : CliCfg)
    (hw : img₁.w = img₂.w) (hh : img₁.h = img₂.h)
    (hpx : ∀ x y, x < img₁.w → y < img₁.h → img₁.px x y = img₂.px x y) :
    webAnalyze img₁ wcfg = webAnalyze img₂ wcfg ∧
    cliAnalyze img₁ ccfg = cliAnalyze img₂ ccfg := by
  constructor
  · unfold webAnalyze
    rw [webStats_congr wcfg hw hh hpx, webSampleMask_congr wcfg hw hh hpx,
      webPass_congr wcfg hw hh hpx, webFailingMask_congr wcfg hw hh hpx]
  · unfold cliAnalyze
    rw [cliBgMask_congr ccfg hw hh hpx, cliBandMask_congr ccfg hw hh hpx,
      ← hw, ← hh]
    have hrep : (ccfg.backgrounds.map fun c => cliCollect img₁ ccfg c) =
        ccfg.backgrounds.map fun c => cliCollect img₂ ccfg c :=
      List.map_congr_left fun c _ => cliCollect_congr ccfg c hw hh hpx
    rw [hrep]

end Determinism

set_option maxRecDepth 40000 in
/-- Witness for C9: two syntactically different pixel lookups agreeing on the
5×5 grid give identical results. -/
theorem claim9_witness :
    webAnalyze imgFringe cfgFringe = webAnalyze imgFringe2 cfgFringe ∧
    cliAnalyze imgFringe cfgGray = cliAnalyze imgFringe2 cfgGray := by
  have hpx : ∀ x, x < 5 → ∀ y, y < 5 → imgFringe.px x y = imgFringe2.px x y := by
    decide
  exact claim9_deterministic imgFringe imgFringe2 cfgFringe cfgGray rfl rfl
    (fun x y hx hy => hpx x hx y hy)

end ImgContrast